import Mathlib

/-!
Verification development for the `rabin-b-tree` library: canonical,
functionally persistent content-addressed collections (an indexed list
`RabinList` and an ordered map `RabinBTree`) built over a content-addressed
block store.

Shallow embedding notes.

* A `CID` is the content identifier of a block.  The block store is
  content-addressed: a node's CID is a deterministic injective function of its
  serialized payload, and `parseNode` recovers exactly the payload that
  `serializeNode` stored.  We therefore model a CID as the payload itself:
  `CID.node` carries a list node `(leaf, counts, children)`
  (`RabinList.serializeNode`, helpers.ts), `CID.mnode` carries a map node
  `(leaf, counts, keys, children)` (`RabinBTree.serializeNode`,
  rabin-b-tree.ts), and `CID.item` is an opaque data block supplied by the
  caller.  Equality of CIDs is equality of these values.  Because Lean 4.14
  does not accept structural recursion through `List CID` nested in an
  inductive, children are stored in the isomorphic mutual type `CIDs`;
  all algorithm code works with `List CID` via `CIDs.ofList/toList`.

* The chunker (chunk.ts) reads `gear cid` = the last four bytes of the CID
  interpreted as `b0 + (b1<<8) + (b2<<16) + (b3<<24)` in JavaScript, where
  `b3 << 24` is a signed 32-bit shift, so the result is an integer in
  `[-2^31, 2^31)` that is unpredictable for hash-derived CIDs.  We abstract
  it as an explicit parameter `g : CID → Int` threaded through every
  function that chunks.

* Map keys are compared with a caller-supplied comparator; the embedding
  instantiates the key type with `Nat` and the comparator `kcmp` with the
  standard ordering comparator used by the library's own tests.

* JavaScript loops become structurally recursive Lean functions; the loops
  whose bound is not syntactic take an explicit fuel argument, and every
  wrapper supplies a concretely computable fuel that the development shows
  (or, for paths no theorem depends on, conservatively overestimates) to be
  sufficient.  `Infinity` values in the scan cursor are modelled by
  `Option Int` with `none` = +infinity.  JavaScript exceptions become
  `Except Err`: `Err.outOfBounds` for the explicit out-of-bounds throws,
  `Err.invalidNode` for `parseNode` validation failures, and `Err.typeErr`
  for a TypeError caused by dereferencing `undefined`.
-/

mutual

/-- Content identifiers, modelled as the content they address (see header).
`item` is an opaque caller data block; `node` a `RabinList` node
`(leaf, counts, children)`; `mnode` a `RabinBTree` node
`(leaf, counts, keys, children)`. -/
inductive CID where
  | item : Nat → CID
  | node : Bool → List Nat → CIDs → CID
  | mnode : Bool → List Nat → List Nat → CIDs → CID
deriving DecidableEq

/-- Children lists (isomorphic to `List CID`; see header). -/
inductive CIDs where
  | nil : CIDs
  | cons : CID → CIDs → CIDs
deriving DecidableEq

end

/-- Convert the mutual children list to an ordinary list. -/
def CIDs.toList : CIDs → List CID
  | .nil => []
  | .cons c cs => c :: cs.toList

/-- Convert an ordinary list of children to the mutual children list. -/
def CIDs.ofList : List CID → CIDs
  | [] => .nil
  | c :: cs => .cons c (CIDs.ofList cs)

mutual

/-- Structural size of a CID value (1 per node or item).  Used as fuel for
loops that descend through the tree. -/
def csize : CID → Nat
  | .item _ => 1
  | .node _ _ hs => 1 + csizes hs
  | .mnode _ _ _ hs => 1 + csizes hs

/-- Structural size of a children list. -/
def csizes : CIDs → Nat
  | .nil => 0
  | .cons c cs => csize c + csizes cs

end

/-- Errors surfaced by the library: `outOfBounds` for the explicit
`index out of bounds` throws, `invalidNode` for `parseNode` shape-validation
throws, `typeErr` for a JavaScript TypeError from dereferencing `undefined`. -/
inductive Err where
  | outOfBounds : Err
  | invalidNode : Err
  | typeErr : Err
deriving DecidableEq

/-- Decidable equality of `Except` results (uses the decidable equality of
the error and value types). -/
instance {ε α : Type} [DecidableEq ε] [DecidableEq α] : DecidableEq (Except ε α) := fun x y =>
  match x, y with
  | .error a, .error b =>
    if h : a = b then .isTrue (congrArg Except.error h)
    else .isFalse fun hh => h (Except.error.inj hh)
  | .ok a, .ok b =>
    if h : a = b then .isTrue (congrArg Except.ok h)
    else .isFalse fun hh => h (Except.ok.inj hh)
  | .error _, .ok _ => .isFalse fun hh => Except.noConfusion hh
  | .ok _, .error _ => .isFalse fun hh => Except.noConfusion hh

/-! ## Chunker (chunk.ts) -/

/-- `MIN_SIZE` from chunk.ts. -/
def MIN_SIZE : Nat := 64

/-- `MAX_SIZE` from chunk.ts. -/
def MAX_SIZE : Nat := 1024

/-- `MASK_HI` from chunk.ts. -/
def MASK_HI : Nat := 0x88000000

/-- `MASK_LO` from chunk.ts. -/
def MASK_LO : Nat := 0x03000000

/-- One fingerprint update of the chunk.ts scan loops.  State is
`(fhi, flo)`, both unsigned 32-bit (represented as `Nat < 2^32`).  Mirrors
`x = ((flo << 1) >>> 0) + gear(data[ptr++]); fhi = (((fhi << 1) >>> 0) +
(x > UINT32_MASK ? 1 : 0)) >>> 0; flo = x >>> 0` where `UINT32_MASK = ~0`
is the JavaScript number `-1`, so the carry tests `x > -1`, and `>>> 0` is
ToUint32, i.e. mathematical mod `2^32`. -/
def gearStep (g : CID → Int) (s : Nat × Nat) (c : CID) : Nat × Nat :=
  let x : Int := ((s.2 * 2 % 4294967296 : Nat) : Int) + g c
  let carry : Nat := if (-1 : Int) < x then 1 else 0
  ((s.1 * 2 % 4294967296 + carry) % 4294967296, (x % 4294967296).toNat)

/-- The boundary test of chunk.ts:
`((MASK_HI & fhi) === 0) && ((MASK_LO & flo) === 0)`. -/
def isBoundary (s : Nat × Nat) : Bool :=
  (MASK_HI.land s.1 == 0) && (MASK_LO.land s.2 == 0)

/-- The warm-up loop of `nextChunk`: consume the items, updating the
fingerprint, with no boundary test. -/
def warmup (g : CID → Int) (items : List CID) (s : Nat × Nat) : Nat × Nat :=
  items.foldl (gearStep g) s

/-- The test loop of `nextChunk` (`for (let i = MIN_SIZE; i < n; ++i)`):
consume items one at a time; after each update test `isBoundary` and if it
fires return the index just past that item (`return ptr`).  Returns `none`
if no boundary fires before the items run out. -/
def boundaryScan (g : CID → Int) : Nat × Nat → List CID → Nat → Option Nat
  | _, [], _ => none
  | s, c :: rest, ptr =>
    let s2 := gearStep g s c
    if isBoundary s2 then some (ptr + 1) else boundaryScan g s2 rest (ptr + 1)

/-- `nextChunk (data, start)` from chunk.ts.  `n = min(data.length - start,
MAX_SIZE)`; if `n < MIN_SIZE` return `data.length`; otherwise warm up on the
first `MIN_SIZE` children past `start` and then scan up to `n - MIN_SIZE`
further children for a boundary, returning the hard cut `start + n` if none
fires. -/
def nextChunk (g : CID → Int) (data : List CID) (start : Nat) : Nat :=
  let n := min (data.length - start) MAX_SIZE
  if n < MIN_SIZE then data.length
  else
    let rest := data.drop start
    let s := warmup g (rest.take MIN_SIZE) (0, 0)
    match boundaryScan g s ((rest.drop MIN_SIZE).take (n - MIN_SIZE)) (start + MIN_SIZE) with
    | some p => p
    | none => start + n

/-- `True` exactly when no mask boundary fires for `nextChunk g data start`
(either the tail is shorter than `MIN_SIZE`, so no test happens at all, or
the test loop runs dry). -/
def noBoundaryWithin (g : CID → Int) (data : List CID) (start : Nat) : Bool :=
  let n := min (data.length - start) MAX_SIZE
  decide (n < MIN_SIZE) ||
    (boundaryScan g (warmup g ((data.drop start).take MIN_SIZE) (0, 0))
      (((data.drop start).drop MIN_SIZE).take (n - MIN_SIZE)) (start + MIN_SIZE)).isNone

/-! ## Shared helpers (helpers.ts) -/

/-- `sum (x, start, end)` from helpers.ts: sum of `x[start..end)`. -/
def sumRange (x : List Nat) (lo hi : Nat) : Nat :=
  ((x.drop lo).take (hi - lo)).sum

/-- `x.slice(lo, hi)` on arrays (used as `prevCount.slice(lo, hi)` etc.). -/
def sliceArr (x : List α) (lo hi : Nat) : List α :=
  (x.drop lo).take (hi - lo)

/-- JavaScript `Array.prototype.splice(start, deleteCount, ...ins)` as a pure
function (the array value after the call): `start` and `deleteCount` are
already clamped to `[0, len]` resp. `[0, len - start]` by `Nat` arithmetic
exactly as ToIntegerOrInfinity clamping does for the in-range call sites. -/
def listSplice (xs : List α) (start : Nat) (del : Nat) (ins : List α) : List α :=
  let s := min start xs.length
  xs.take s ++ ins ++ xs.drop (s + del)

/-- The comparator the library's tests supply:
`(a, b) => a < b ? -1 : a === b ? 0 : 1` (key type instantiated at `Nat`). -/
def kcmp (a b : Nat) : Int :=
  if a < b then -1 else if a = b then 0 else 1

/-- `findPred (items, key, compare)` from helpers.ts: index of the last
element of the longest prefix of `items` whose elements compare `<= key`
(the scan breaks at the first element comparing `> key`), or `-1` if the
first element already compares `> key`. -/
def findPred (items : List Nat) (key : Nat) : Int :=
  ((items.takeWhile (fun a => decide (kcmp a key ≤ 0))).length : Int) - 1

/-! ## List nodes (RabinList, helpers.ts) -/

/-- Parsed `RabinListNode`. -/
structure LNode where
  leaf : Bool
  count : List Nat
  hashes : List CID
deriving DecidableEq

/-- `RabinList.serializeNode(leaf, counts, hashes)`: store the payload and
return its CID.  Content addressing makes this the evident constructor. -/
def serializeL (leaf : Bool) (counts : List Nat) (hashes : List CID) : CID :=
  CID.node leaf counts (CIDs.ofList hashes)

/-- `RabinList.parseNode(cid)`: fetch and validate.  A list-node block
yields its payload (counts coerced with `>>> 0`, i.e. mod `2^32`) provided
`count.length === hashes.length`; any other block fails validation
(`invalid RabinList node`). -/
def parseL : CID → Except Err LNode
  | .node l cnt hs =>
    let hl := hs.toList
    if cnt.length = hl.length then
      .ok ⟨l, cnt.map (· % 4294967296), hl⟩
    else .error .invalidNode
  | _ => .error .invalidNode

/-- One chunking pass of `RabinList.create` (and of the re-chunk step of
`RabinList.splice`): walk `lo` over the level, cutting at
`hi = nextChunk(prevHashes, lo)` — including create's dead guard
`if (hi < 0) hi = prevHashes.length` — and emit the summed count and
serialized node of each chunk.  Fuel decreases once per emitted chunk;
since every chunk is nonempty, `hs.length + 1` suffices (wrapper below). -/
def chunkPassGo (g : CID → Int) (leaf : Bool) (cnt : List Nat) (hs : List CID) :
    Nat → Nat → List Nat × List CID
  | 0, _ => ([], [])
  | fuel + 1, lo =>
    if lo < hs.length then
      let hi0 := nextChunk g hs lo
      let hi := if (hi0 : Int) < 0 then hs.length else hi0
      let rest := chunkPassGo g leaf cnt hs fuel hi
      (sumRange cnt lo hi :: rest.1, serializeL leaf (sliceArr cnt lo hi) (sliceArr hs lo hi) :: rest.2)
    else ([], [])

/-- One full chunking pass over a level (list nodes). -/
def chunkPass (g : CID → Int) (leaf : Bool) (cnt : List Nat) (hs : List CID) :
    List Nat × List CID :=
  chunkPassGo g leaf cnt hs (hs.length + 1) 0

/-- The same pass with the dead `if (hi < 0)` guard of `create` removed;
only used to state that the guard is unreachable. -/
def chunkPassNoGuardGo (g : CID → Int) (leaf : Bool) (cnt : List Nat) (hs : List CID) :
    Nat → Nat → List Nat × List CID
  | 0, _ => ([], [])
  | fuel + 1, lo =>
    if lo < hs.length then
      let hi := nextChunk g hs lo
      let rest := chunkPassNoGuardGo g leaf cnt hs fuel hi
      (sumRange cnt lo hi :: rest.1, serializeL leaf (sliceArr cnt lo hi) (sliceArr hs lo hi) :: rest.2)
    else ([], [])

/-- Guard-free full pass (see `chunkPassNoGuardGo`). -/
def chunkPassNoGuard (g : CID → Int) (leaf : Bool) (cnt : List Nat) (hs : List CID) :
    List Nat × List CID :=
  chunkPassNoGuardGo g leaf cnt hs (hs.length + 1) 0

/-- The `do … while (prevHashes.length !== 1)` loop of `RabinList.create`:
run a chunking pass, return the single remaining CID once a pass leaves one,
else iterate with `leaf := false`.  Each pass over two or more CIDs strictly
shrinks the level, so the wrapper's fuel `hashes.length + 1` suffices. -/
def createLoopL (g : CID → Int) : Nat → List Nat → List CID → Bool → CID
  | 0, _, hs, _ => hs.headD (serializeL true [] [])
  | fuel + 1, cnt, hs, leaf =>
    let nxt := chunkPass g leaf cnt hs
    if nxt.2.length = 1 then nxt.2.headD (serializeL true [] [])
    else createLoopL g fuel nxt.1 nxt.2 false

/-- `RabinList.create(hashes)`: the empty input yields the canonical empty
leaf; otherwise seed counts with 1s and run the bottom-up chunking loop. -/
def createList (g : CID → Int) (hashes : List CID) : CID :=
  if hashes.length = 0 then serializeL true [] []
  else createLoopL g (hashes.length + 1) (hashes.map fun _ => 1) hashes true

/-- The `for (i …) { if (ptr < count) … ; ptr -= count }` walk common to
`at` and `scan` descents (strict comparison): find the first `(c, h)` with
`ptr < c`, returning the 0-based index, that child and the residual rank;
`none` when the walk exhausts the node. -/
def locateLt : List (Nat × CID) → Nat → Nat → Option (Nat × CID × Nat)
  | [], _, _ => none
  | (c, h) :: rest, ptr, i =>
    if ptr < c then some (i, h, ptr) else locateLt rest (ptr - c) (i + 1)

/-- The `RabinList.splice` descent walk (`if (ptr <= c)`, non-strict):
find the first `(c, h)` with `ptr ≤ c`, returning index, count, child and
residual; `none` when the walk exhausts the node. -/
def locateLe : List (Nat × CID) → Nat → Nat → Option (Nat × Nat × CID × Nat)
  | [], _, _ => none
  | (c, h) :: rest, ptr, i =>
    if ptr ≤ c then some (i, c, h, ptr) else locateLe rest (ptr - c) (i + 1)

/-- The `search_loop` of `RabinList.at`: parse the node, walk its counts;
exhausting a node throws out of bounds; a hit on a leaf returns the child,
on an internal node descends.  Fuel bounds the descent depth (`csize root`
at the wrapper). -/
def atListGo : Nat → CID → Nat → Except Err CID
  | 0, _, _ => .error .typeErr
  | fuel + 1, c, ptr => do
    let nd ← parseL c
    match locateLt (nd.count.zip nd.hashes) ptr 0 with
    | none => .error .outOfBounds
    | some (_, h, ptr2) => if nd.leaf then .ok h else atListGo fuel h ptr2

/-- `RabinList.at(root, index)`: negative indices throw immediately, then
the descent runs. -/
def atList (root : CID) (index : Int) : Except Err CID :=
  if index < 0 then .error .outOfBounds
  else atListGo (csize root) root index.toNat

/-- `RabinList.size(root) = sum(node.count, 0, node.count.length)`. -/
def sizeList (root : CID) : Except Err Nat := do
  let nd ← parseL root
  .ok nd.count.sum

mutual

/-- Logical contents of a list tree: a leaf node contributes its children in
order, an internal node the concatenation of its children's contents.
(On blocks that are not list nodes the value is irrelevant to any theorem;
an `item` is its own one-element content for bookkeeping.) -/
def contentsL : CID → List CID
  | .item n => [.item n]
  | .node true _ hs => hs.toList
  | .node false _ hs => contentsLs hs
  | .mnode _ _ _ _ => []

/-- Concatenated contents of a children list. -/
def contentsLs : CIDs → List CID
  | .nil => []
  | .cons c cs => contentsL c ++ contentsLs cs

end

/-- Number of logical elements below a CID. -/
def lsizeL (c : CID) : Nat := (contentsL c).length

/-- Well-formed list tree of the given depth (0 = leaf), as produced by
`RabinList.create`: at depth 0 a leaf node with unit counts; at depth
`d + 1` an internal node with at least one child, each child a well-formed
depth-`d` tree whose recorded count is its logical size, every child
nonempty, and every count below `2^32` (so the `>>> 0` coercion of
`parseNode` is the identity). -/
def wfLb : Nat → CID → Bool
  | 0, .node true cnt hs =>
    cnt.length == hs.toList.length && cnt.all (· == 1)
  | d + 1, .node false cnt hs =>
    let hl := hs.toList
    cnt.length == hl.length && !hl.isEmpty && hl.all (wfLb d) &&
      cnt == hl.map lsizeL && cnt.all (fun c => 0 < c && c < 4294967296)
  | _, _ => false

/-! ## RabinList.splice (helpers.ts) -/

/-- A staged level of `RabinList.splice`: the half-open window
`[start, stop)` within the mutable working copies `count`/`hashes` (the TS
field `end` is `stop` here, `end` being a Lean keyword). -/
structure LLevel where
  start : Nat
  stop : Nat
  count : List Nat
  hashes : List CID
deriving DecidableEq

/-- The `search_loop` descent of `RabinList.splice`: walk counts with
`ptr <= c`; push an internal level `(start = i, end = i + 1)` and descend,
or at a leaf push `(start = i + (ptr === c ? 1 : 0), end = i + 1)`.  The
result lists the levels bottom-up (leaf level first, root level last);
exhausting a node throws out of bounds.  Fuel bounds the depth
(`csize root` at the wrapper). -/
def spliceDescend : Nat → CID → Nat → Except Err (List LLevel)
  | 0, _, _ => .error .typeErr
  | fuel + 1, c, ptr => do
    let nd ← parseL c
    match locateLe (nd.count.zip nd.hashes) ptr 0 with
    | none => .error .outOfBounds
    | some (i, ci, h, ptr2) =>
      if nd.leaf then
        .ok [⟨i + (if ptr2 = ci then 1 else 0), i + 1, nd.count, nd.hashes⟩]
      else do
        let rest ← spliceDescend fuel h ptr2
        .ok (rest ++ [⟨i, i + 1, nd.count, nd.hashes⟩])

/-- The body of `extendLevel` after any recursive extension has succeeded:
read `parent.hashes[parent.end++]`, parse it, and append its counts and
children to level `level`'s working copies.  A missing index or parse
failure is the corresponding JavaScript error. -/
def extendPull (levels : List LLevel) (level : Nat) : Except Err (List LLevel) :=
  match levels.get? (level + 1) with
  | none => .error .typeErr
  | some parent =>
    match parent.hashes.get? parent.stop with
    | none => .error .typeErr
    | some cid => do
      let nd ← parseL cid
      let parent2 := { parent with stop := parent.stop + 1 }
      match levels.get? level with
      | none => .error .typeErr
      | some l =>
        let l2 := { l with count := l.count ++ nd.count, hashes := l.hashes ++ nd.hashes }
        .ok (((levels.set level l2).set (level + 1) parent2))

/-- `extendLevel(level)` of `RabinList.splice`: `false` (`none`) at the top
level; if the parent window has consumed the whole working copy, first
extend the parent recursively, then pull the parent's next child into this
level.  Fuel bounds the upward recursion (`levels.length` at call sites). -/
def extendLevel : Nat → List LLevel → Nat → Except Err (Option (List LLevel))
  | 0, _, _ => .error .typeErr
  | fuel + 1, levels, level =>
    if level = levels.length - 1 then .ok none
    else
      match levels.get? (level + 1) with
      | none => .error .typeErr
      | some parent =>
        if parent.stop = parent.count.length then do
          match ← extendLevel fuel levels (level + 1) with
          | none => .ok none
          | some levels2 => do
            let levels3 ← extendPull levels2 level
            .ok (some levels3)
        else do
          let levels3 ← extendPull levels level
          .ok (some levels3)

/-- The deletion-range extension loop of `RabinList.splice`
(`while (bottom.count.length < bottom.end) { if (!extendLevel(1)) { clamp;
break } }`).  Fuel bounds the number of pulls plus one; each pull strictly
decreases the potential `extPotential` below, so the wrapper supplies
`extPotential levels + 2`. -/
def extLoop : Nat → List LLevel → Except Err (List LLevel)
  | 0, _ => .error .typeErr
  | fuel + 1, levels =>
    match levels.get? 1 with
    | none => .error .typeErr
    | some bottom =>
      if bottom.count.length < bottom.stop then do
        match ← extendLevel levels.length levels 1 with
        | none => .ok (levels.set 1 { bottom with stop := bottom.count.length })
        | some levels2 => extLoop fuel levels2
      else .ok levels

/-- Total structural size of the unconsumed right-hand entries of every
level (`Σ_t Σ_{j ≥ stop_t} csize hashes_t[j]`): each successful
`extendLevel` pull strictly decreases it, bounding the extension loop. -/
def extPotential (levels : List LLevel) : Nat :=
  (levels.map (fun l => ((l.hashes.drop l.stop).map csize).sum)).sum

/-- Phase B of the rebuild loop of `RabinList.splice`: once past the
original top level, each iteration synthesizes an empty parent, splices the
whole current level into it, re-chunks, and stops when at most one node
remains.  A pass over two or more CIDs strictly shrinks the level, so fuel
`hs.length + 1` suffices at the call site. -/
def rebuildTopL (g : CID → Int) : Nat → List Nat → List CID → LLevel
  | 0, cnt, hs => ⟨0, 0, cnt, hs⟩
  | fuel + 1, cnt, hs =>
    let nxt := chunkPass g false cnt hs
    if nxt.2.length ≤ 1 then ⟨0, 0, nxt.1, nxt.2⟩
    else rebuildTopL g fuel nxt.1 nxt.2

/-- The rebuild loop of `RabinList.splice` (`for (let i = 0; …)`): splice
the current level's working copies into its parent's window
`[start, end)`, re-chunk the parent (the `while (hi < 0)` extension guard
is dead code, see `c9_chunker_nonneg`), and continue upward; serialized
nodes are leaves exactly at the first iteration.  When the parent is the
original top level and is left with at most one node the loop breaks; past
the original top it continues with synthesized parents (`rebuildTopL`). -/
def rebuildGo (g : CID → Int) : Bool → LLevel → List LLevel → LLevel
  | first, child, [] =>
    let nxt := chunkPass g first child.count child.hashes
    if nxt.2.length ≤ 1 then ⟨0, 0, nxt.1, nxt.2⟩
    else rebuildTopL g (nxt.2.length + 1) nxt.1 nxt.2
  | first, child, parent :: rest =>
    let del := parent.stop - parent.start
    let mc := listSplice parent.count parent.start del child.count
    let mh := listSplice parent.hashes parent.start del child.hashes
    let nxt := chunkPass g first mc mh
    let parent2 : LLevel := ⟨parent.start, parent.stop, nxt.1, nxt.2⟩
    if rest.isEmpty && nxt.2.length ≤ 1 then parent2
    else rebuildGo g false parent2 rest

/-- The singleton-collapse loop of `RabinList.splice`: starting from the
head child of the final level, follow `hashes[0]` while the parsed block has
exactly one child; return the first block with any other child count.
Fuel bounds the descent (`csize` of the starting CID at the call site). -/
def collapseGoL : Nat → CID → Except Err CID
  | 0, _ => .error .typeErr
  | fuel + 1, c => do
    let nd ← parseL c
    match nd.hashes with
    | [h] => collapseGoL fuel h
    | _ => .ok c

/-- The post-descent pipeline of `RabinList.splice`: the extension loop for
the deletion window (fuel one more than the strictly decreasing pull
potential), the bottom-up rebuild, and the final collapse (an empty final
level gives the canonical empty leaf). -/
def spliceFinish (g : CID → Int) (levels1 : List LLevel) : Except Err CID := do
  let levels2 ← extLoop (extPotential levels1 + 2) levels1
  match levels2 with
  | [] => .error .typeErr
  | child :: rest =>
    let head := rebuildGo g true child rest
    if head.hashes.length = 0 then .ok (serializeL true [] [])
    else
      match head.hashes.headD (serializeL true [] []) with
      | h => collapseGoL (csize h) h

/-- `RabinList.splice(root, start, deleteCount, ...items)`, assembled from
the stages above: the negative-start throw; parse of the root with the
empty-root special case degenerating to `create(items)`; the descent; the
bottom window `end = start + deleteCount`; then extension, rebuild and
collapse (`spliceFinish`). -/
def spliceList (g : CID → Int) (root : CID) (start : Int) (deleteCount : Int)
    (items : List CID) : Except Err CID :=
  if start < 0 then .error .outOfBounds
  else do
    let nd ← parseL root
    if nd.hashes.length = 0 then .ok (createList g items)
    else do
      let levels0 ← spliceDescend (csize root) root start.toNat
      match levels0 with
      | [] => .error .typeErr
      | bottom :: uppers =>
        let payload : LLevel := ⟨0, 0, items.map fun _ => 1, items⟩
        let bottom2 := { bottom with stop := (↑bottom.start + deleteCount).toNat }
        spliceFinish g (payload :: bottom2 :: uppers)

/-! ## RabinList.scan (helpers.ts) -/

/-- Range options of `RabinList.scan` (`lo`, `hi`, `limit`; a missing field
is an absent property, `hi`/`limit` default to `Infinity`). -/
structure LOpts where
  lo : Option Int := none
  hi : Option Int := none
  limit : Option Int := none

/-- Extended integers for the cursor count: `none` is `Infinity`. -/
def eMin : Option Int → Option Int → Option Int
  | none, b => b
  | a, none => a
  | some a, some b => some (min a b)

/-- `e - s` for extended `e` (`Infinity - s = Infinity`). -/
def eSubPoint : Option Int → Int → Option Int
  | none, _ => none
  | some e, s => some (e - s)

/-- `count < 0` (`Infinity` is not). -/
def eNeg : Option Int → Bool
  | none => false
  | some c => decide (c < 0)

/-- `count > 0` (`Infinity` is). -/
def ePos : Option Int → Bool
  | none => true
  | some c => decide (0 < c)

/-- `Math.min(count, avail)` for a finite natural `avail`, as a natural. -/
def eMinNat (count : Option Int) (avail : Nat) : Nat :=
  match count with
  | none => avail
  | some c => (min c (avail : Int)).toNat

/-- `count -= n` (`Infinity` stays `Infinity`). -/
def eSubNat : Option Int → Nat → Option Int
  | none, _ => none
  | some c, n => some (c - n)

/-- A cursor stack frame of `RabinList.scan`: `{ index, hashes }`. -/
structure LFrame where
  index : Nat
  hashes : List CID
deriving DecidableEq

/-- The initial rank descent of `RabinList.scan` (`search_loop`): walk
counts with `ptr < c`, pushing a frame per level; return `none` when a node
exhausts (the generator returns without yielding).  The result stack has
its top (leaf) frame first.  Fuel bounds the depth. -/
def scanDescendL : Nat → CID → Nat → List LFrame → Except Err (Option (List LFrame))
  | 0, _, _, _ => .error .typeErr
  | fuel + 1, c, ptr, acc => do
    let nd ← parseL c
    match locateLt (nd.count.zip nd.hashes) ptr 0 with
    | none => .ok none
    | some (i, h, ptr2) =>
      let acc2 := (⟨i, nd.hashes⟩ : LFrame) :: acc
      if nd.leaf then .ok (some acc2) else scanDescendL fuel h ptr2 acc2

/-- Leftmost-leaf descent used when the walk advances to a fresh child
(`while (true) { parse; push {0, hashes}; if leaf break; cid = hashes[0] }`).
Pushes the new frames in front of the stack. -/
def descendLeftL : Nat → CID → List LFrame → Except Err (List LFrame)
  | 0, _, _ => .error .typeErr
  | fuel + 1, c, acc => do
    let nd ← parseL c
    let acc2 := (⟨0, nd.hashes⟩ : LFrame) :: acc
    if nd.leaf then .ok acc2
    else
      match nd.hashes.headD (CID.item 0), nd.hashes with
      | _, [] => .error .typeErr
      | h, _ => descendLeftL fuel h acc2

/-- Result of one walk step of the scan cursor. -/
inductive WalkRes where
  | next : List LFrame → WalkRes
  | stop : WalkRes
  | fail : Err → WalkRes

/-- The "walk to next node" loop of `RabinList.scan`: peek the top frame and
advance its index — on an empty stack this is
`stack[stack.length - 1].index += 1` on `undefined`, a TypeError; pop frames
whose index ran off the end, stopping the generator when the stack empties;
otherwise descend to the leftmost leaf of the next child. -/
def walkNextL : List LFrame → WalkRes
  | [] => .fail .typeErr
  | top :: rest =>
    let idx2 := top.index + 1
    if idx2 ≥ top.hashes.length then
      match rest with
      | [] => .stop
      | _ => walkNextL rest
    else
      match top.hashes.get? idx2 with
      | none => .fail .typeErr
      | some c =>
        match descendLeftL (csize c) c ({ top with index := idx2 } :: rest) with
        | .error e => .fail e
        | .ok stack2 => .next stack2

/-- The yield loop of `RabinList.scan` (`while (count > 0)`): pop the top
frame, yield up to `min(count, frame.len - frame.index)` children, stop when
the count runs out, otherwise walk to the next leaf.  Returns the yielded
sequence together with `some e` if iteration aborted with an error.  Fuel
bounds the number of leaf visits. -/
def scanLoopL : Nat → List LFrame → Option Int → List CID → List CID × Option Err
  | 0, _, _, acc => (acc, some .typeErr)
  | fuel + 1, stack, count, acc =>
    if ePos count then
      match stack with
      | [] => (acc, some .typeErr)
      | top :: rest =>
        let n := eMinNat count (top.hashes.length - top.index)
        let acc2 := acc ++ sliceArr top.hashes top.index (top.index + n)
        let count2 := eSubNat count n
        if ePos count2 then
          match walkNextL rest with
          | .stop => (acc2, none)
          | .fail e => (acc2, some e)
          | .next stack2 => scanLoopL fuel stack2 count2 acc2
        else (acc2, none)
    else (acc, none)

/-- `RabinList.scan(root, options)`: clamp `lo`, compute
`count = min(hi - lo, limit)` (with `Infinity` defaults), return empty when
`count < 0`, run the rank descent (an exhausted walk yields nothing), then
iterate.  The result is the yielded sequence plus `some e` if the generator
threw after those yields. -/
def scanList (root : CID) (opts : LOpts) : List CID × Option Err :=
  let start : Int := max (opts.lo.getD 0) 0
  let count : Option Int := eMin (eSubPoint opts.hi start) opts.limit
  if eNeg count then ([], none)
  else
    match scanDescendL (csize root) root start.toNat [] with
    | .error e => ([], some e)
    | .ok none => ([], none)
    | .ok (some stack) => scanLoopL (csize root + 1) stack count []

/-! ## Map nodes (RabinBTree, rabin-b-tree.ts) -/

/-- Parsed `RabinBTreeNode` (key type instantiated at `Nat`). -/
structure MNode where
  leaf : Bool
  count : List Nat
  keys : List Nat
  hashes : List CID
deriving DecidableEq

/-- `RabinBTree.serializeNode(leaf, counts, keys, hashes)`. -/
def serializeM (leaf : Bool) (counts : List Nat) (keys : List Nat) (hashes : List CID) : CID :=
  CID.mnode leaf counts keys (CIDs.ofList hashes)

/-- `RabinBTree.parseNode(cid)`: a map-node block yields its payload
(counts coerced mod `2^32`) provided `count.length === keys.length` and
`count.length === hashes.length`; any other block fails validation
(`invalid RabinBTree node`). -/
def parseM : CID → Except Err MNode
  | .mnode l cnt ks hs =>
    let hl := hs.toList
    if cnt.length = ks.length ∧ cnt.length = hl.length then
      .ok ⟨l, cnt.map (· % 4294967296), ks, hl⟩
    else .error .invalidNode
  | _ => .error .invalidNode

/-- One chunking pass of `RabinBTree.create`/`_rebuild`: as the list pass
but each chunk also records its first key (`nextKeys.push(prevKeys[lo])`). -/
def chunkPassMGo (g : CID → Int) (leaf : Bool) (cnt : List Nat) (ks : List Nat)
    (hs : List CID) : Nat → Nat → List Nat × List Nat × List CID
  | 0, _ => ([], [], [])
  | fuel + 1, lo =>
    if lo < hs.length then
      let hi0 := nextChunk g hs lo
      let hi := if (hi0 : Int) < 0 then hs.length else hi0
      let rest := chunkPassMGo g leaf cnt ks hs fuel hi
      (sumRange cnt lo hi :: rest.1,
       ks.getD lo 0 :: rest.2.1,
       serializeM leaf (sliceArr cnt lo hi) (sliceArr ks lo hi) (sliceArr hs lo hi) :: rest.2.2)
    else ([], [], [])

/-- Full chunking pass over a map level. -/
def chunkPassM (g : CID → Int) (leaf : Bool) (cnt : List Nat) (ks : List Nat)
    (hs : List CID) : List Nat × List Nat × List CID :=
  chunkPassMGo g leaf cnt ks hs (hs.length + 1) 0

/-- The `do … while` loop of `RabinBTree.create`. -/
def createLoopM (g : CID → Int) : Nat → List Nat → List Nat → List CID → Bool → CID
  | 0, _, _, hs, _ => hs.headD (serializeM true [] [] [])
  | fuel + 1, cnt, ks, hs, leaf =>
    let nxt := chunkPassM g leaf cnt ks hs
    if nxt.2.2.length = 1 then nxt.2.2.headD (serializeM true [] [] [])
    else createLoopM g fuel nxt.1 nxt.2.1 nxt.2.2 false

/-- Stable insertion of a key into a sorted key list (used to model
`prevKeys.sort(this.compare)`; the map's keys are distinct). -/
def insertKey (k : Nat) : List Nat → List Nat
  | [] => [k]
  | x :: xs => if k ≤ x then k :: x :: xs else x :: insertKey k xs

/-- Sort a key list ascending (insertion sort; agrees with the
comparator-based sort of the source since `kcmp` is the natural order). -/
def sortKeys : List Nat → List Nat
  | [] => []
  | k :: ks => insertKey k (sortKeys ks)

/-- `RabinBTree.create(data)`: the entries of the `Map` (distinct keys, in
insertion order), sorted by the comparator; the empty map yields the
canonical empty leaf. -/
def createMap (g : CID → Int) (data : List (Nat × CID)) : CID :=
  if data.length = 0 then serializeM true [] [] []
  else
    let ks := sortKeys (data.map Prod.fst)
    let hs := ks.map fun k => ((data.lookup k).getD (CID.item 0))
    createLoopM g (hs.length + 1) (ks.map fun _ => 1) ks hs true

/-- `RabinBTree.at(root, index)` descent (same walk as the list `at`, but a
leaf hit returns `{ key, value }`). -/
def atMapGo : Nat → CID → Nat → Except Err (Nat × CID)
  | 0, _, _ => .error .typeErr
  | fuel + 1, c, ptr => do
    let nd ← parseM c
    match locateLt (nd.count.zip nd.hashes) ptr 0 with
    | none => .error .outOfBounds
    | some (i, h, ptr2) =>
      if nd.leaf then .ok (nd.keys.getD i 0, h) else atMapGo fuel h ptr2

/-- `RabinBTree.at(root, index)`: negative indices throw; out-of-range
walks throw `out of bounds`. -/
def atMap (root : CID) (index : Int) : Except Err (Nat × CID) :=
  if index < 0 then .error .outOfBounds
  else atMapGo (csize root) root index.toNat

/-- `RabinBTree.size(root)`. -/
def sizeMap (root : CID) : Except Err Nat := do
  let nd ← parseM root
  .ok nd.count.sum

/-- `RabinBTree.eq(root, key)`: descend by `findPred`; `findPred < 0`
returns `null`; at a leaf an exact key match returns the value, otherwise
`null`. -/
def eqMapGo : Nat → CID → Nat → Except Err (Option CID)
  | 0, _, _ => .error .typeErr
  | fuel + 1, c, key => do
    let nd ← parseM c
    let idx := findPred nd.keys key
    if idx < 0 then .ok none
    else
      let i := idx.toNat
      if nd.leaf then
        if kcmp (nd.keys.getD i 0) key = 0 then .ok (nd.hashes.getD i (CID.item 0))
        else .ok none
      else
        match nd.hashes.get? i with
        | none => .error .typeErr
        | some h => eqMapGo fuel h key

/-- `RabinBTree.eq(root, key)`. -/
def eqMap (root : CID) (key : Nat) : Except Err (Option CID) :=
  eqMapGo (csize root) root key

mutual

/-- Logical contents of a map tree: key/value pairs in tree order (a leaf
zips its keys with its children; an internal node concatenates below). -/
def mcontents : CID → List (Nat × CID)
  | .item _ => []
  | .node _ _ _ => []
  | .mnode true _ ks hs => ks.zip hs.toList
  | .mnode false _ _ hs => mcontentsList hs

/-- Concatenated map contents of a children list. -/
def mcontentsList : CIDs → List (Nat × CID)
  | .nil => []
  | .cons c cs => mcontents c ++ mcontentsList cs

end

/-- The keys of a map tree, in tree order. -/
def mkeys (c : CID) : List Nat := (mcontents c).map Prod.fst

/-- Well-formed map tree of the given depth (0 = leaf): the structural
invariants descent relies on — matching array lengths, and at positive
depth a nonempty child list of well-formed trees one level down. -/
def wfMb : Nat → CID → Bool
  | 0, .mnode true cnt ks hs =>
    cnt.length == hs.toList.length && ks.length == hs.toList.length
  | d + 1, .mnode false cnt ks hs =>
    let hl := hs.toList
    cnt.length == hl.length && ks.length == hl.length && !hl.isEmpty && hl.all (wfMb d)
  | _, _ => false

/-! ## RabinBTree mutation (_levels, _rebuild, upsert, remove) -/

/-- A staged level of a `RabinBTree` mutation (TS field `end` is `stop`). -/
structure MLevel where
  start : Nat
  stop : Nat
  count : List Nat
  keys : List Nat
  hashes : List CID
deriving DecidableEq

/-- The descent of `RabinBTree._levels(root, key)` below the root: at each
node `idx = findPred(keys, key)`, `i = max(idx, 0)`; an internal node
pushes `(start = i, end = i + 1)` and descends `children[i]`; a leaf pushes
`(start = matched ? idx : idx + 1, end = idx + 1)` (and `start = i`,
`end = 0` when `idx = -1`).  Result is bottom-up (leaf level first).
Fuel bounds the depth. -/
def mdescend : Nat → CID → Nat → Except Err (List MLevel)
  | 0, _, _ => .error .typeErr
  | fuel + 1, c, key => do
    let nd ← parseM c
    let idx := findPred nd.keys key
    let i := idx.toNat
    if nd.leaf then
      let start :=
        if 0 ≤ idx then (if kcmp (nd.keys.getD i 0) key = 0 then i else i + 1) else i
      .ok [⟨start, (idx + 1).toNat, nd.count, nd.keys, nd.hashes⟩]
    else
      match nd.hashes.get? i with
      | none => .error .typeErr
      | some h => do
        let rest ← mdescend fuel h key
        .ok (rest ++ [⟨i, i + 1, nd.count, nd.keys, nd.hashes⟩])

/-- `RabinBTree._levels(root, key)`: an empty root returns the empty stack;
otherwise the descent plus the synthetic empty payload level in front
(stack order: payload, leaf, …, root). -/
def mlevels (root : CID) (key : Nat) : Except Err (List MLevel) := do
  let nd ← parseM root
  if nd.hashes.length = 0 then .ok []
  else do
    let lv ← mdescend (csize root) root key
    .ok (⟨0, 0, [], [], []⟩ :: lv)

/-- Phase B of `RabinBTree._rebuild` (synthesized parents above the
original top level), as `rebuildTopL`. -/
def rebuildTopM (g : CID → Int) : Nat → List Nat → List Nat → List CID → MLevel
  | 0, cnt, ks, hs => ⟨0, 0, cnt, ks, hs⟩
  | fuel + 1, cnt, ks, hs =>
    let nxt := chunkPassM g false cnt ks hs
    if nxt.2.2.length ≤ 1 then ⟨0, 0, nxt.1, nxt.2.1, nxt.2.2⟩
    else rebuildTopM g fuel nxt.1 nxt.2.1 nxt.2.2

/-- The rebuild loop of `RabinBTree._rebuild`: splice the current level
into the parent window, re-chunk (the `while (hi < 0)` `_extend` guard is
dead code, see `c9_chunker_nonneg`), break when the original top level is
left with at most one node, then continue with synthesized parents. -/
def mrebuildGo (g : CID → Int) : Bool → MLevel → List MLevel → MLevel
  | first, child, [] =>
    let nxt := chunkPassM g first child.count child.keys child.hashes
    if nxt.2.2.length ≤ 1 then ⟨0, 0, nxt.1, nxt.2.1, nxt.2.2⟩
    else rebuildTopM g (nxt.2.2.length + 1) nxt.1 nxt.2.1 nxt.2.2
  | first, child, parent :: rest =>
    let del := parent.stop - parent.start
    let mc := listSplice parent.count parent.start del child.count
    let mk := listSplice parent.keys parent.start del child.keys
    let mh := listSplice parent.hashes parent.start del child.hashes
    let nxt := chunkPassM g first mc mk mh
    let parent2 : MLevel := ⟨parent.start, parent.stop, nxt.1, nxt.2.1, nxt.2.2⟩
    if rest.isEmpty && nxt.2.2.length ≤ 1 then parent2
    else mrebuildGo g false parent2 rest

/-- The singleton-collapse loop of `RabinBTree._rebuild`. -/
def collapseGoM : Nat → CID → Except Err CID
  | 0, _ => .error .typeErr
  | fuel + 1, c => do
    let nd ← parseM c
    match nd.hashes with
    | [h] => collapseGoM fuel h
    | _ => .ok c

/-- `RabinBTree._rebuild(levels)` applied to a staged stack
(payload first): rebuild upward, then collapse (an empty final level gives
the canonical empty leaf). -/
def mrebuild (g : CID → Int) (levels : List MLevel) : Except Err CID :=
  match levels with
  | [] => .error .typeErr
  | child :: rest =>
    let head := mrebuildGo g true child rest
    if head.hashes.length = 0 then .ok (serializeM true [] [] [])
    else
      match head.hashes.headD (serializeM true [] [] []) with
      | h => collapseGoM (csize h) h

/-- `RabinBTree.upsert(root, key, value)`: an empty stack (empty root)
serializes the singleton leaf directly; otherwise push `(1, key, value)`
onto the payload level and rebuild. -/
def upsertMap (g : CID → Int) (root : CID) (key : Nat) (value : CID) : Except Err CID := do
  let levels ← mlevels root key
  match levels with
  | [] => .ok (serializeM true [1] [key] [value])
  | payload :: rest =>
    let payload2 : MLevel :=
      ⟨payload.start, payload.stop, payload.count ++ [1],
        payload.keys ++ [key], payload.hashes ++ [value]⟩
    mrebuild g (payload2 :: rest)

/-- `RabinBTree.remove(root, key)`: an empty/degenerate stack serializes an
empty leaf; a leaf window with `start === end` (no exact match) is a no-op
returning the original root; otherwise rebuild with the empty payload. -/
def removeMap (g : CID → Int) (root : CID) (key : Nat) : Except Err CID := do
  let levels ← mlevels root key
  if levels.length ≤ 1 then .ok (serializeM true [] [] [])
  else
    match levels.get? 1 with
    | none => .error .typeErr
    | some bottom =>
      if bottom.start = bottom.stop then .ok root
      else mrebuild g levels

/-! ## RabinBTree.scan (rabin-b-tree.ts) -/

/-- Range options of `RabinBTree.scan` (`RabinBTreeRangeSpec`): rank bounds
`lo`/`hi`, key bounds `lt`/`le` (start) and `gt`/`ge` (stop), and `limit`. -/
structure MOpts where
  lo : Option Int := none
  lt : Option Nat := none
  le : Option Nat := none
  hi : Option Int := none
  gt : Option Nat := none
  ge : Option Nat := none
  limit : Option Int := none

/-- A cursor stack frame of `RabinBTree.scan`: `{ index, keys, hashes }`. -/
structure MFrame where
  index : Nat
  keys : List Nat
  hashes : List CID
deriving DecidableEq

/-- The key descent of `RabinBTree.scan` (when `lt`/`le` is present): at
each level `idx = max(findPred(keys, key), 0)`, decrement the count by the
prefix sum of counts `[0, idx)`, push the frame, and descend `children[idx]`
until a leaf frame is on top. -/
def scanKeyDescendM : Nat → CID → Nat → Option Int → List MFrame →
    Except Err (Option Int × List MFrame)
  | 0, _, _, _, _ => .error .typeErr
  | fuel + 1, c, key, count, acc => do
    let nd ← parseM c
    let idx := (max (findPred nd.keys key) 0).toNat
    let count2 := eSubNat count (sumRange nd.count 0 idx)
    let acc2 := (⟨idx, nd.keys, nd.hashes⟩ : MFrame) :: acc
    if nd.leaf then .ok (count2, acc2)
    else
      match nd.hashes.get? idx with
      | none => .error .typeErr
      | some h => scanKeyDescendM fuel h key count2 acc2

/-- The rank descent of `RabinBTree.scan` (no key start): as the list scan
descent, with keys recorded in each frame; `none` when a node exhausts
(the generator returns without yielding). -/
def scanRankDescendM : Nat → CID → Nat → List MFrame → Except Err (Option (List MFrame))
  | 0, _, _, _ => .error .typeErr
  | fuel + 1, c, ptr, acc => do
    let nd ← parseM c
    match locateLt (nd.count.zip nd.hashes) ptr 0 with
    | none => .ok none
    | some (i, h, ptr2) =>
      let acc2 := (⟨i, nd.keys, nd.hashes⟩ : MFrame) :: acc
      if nd.leaf then .ok (some acc2) else scanRankDescendM fuel h ptr2 acc2

/-- The `lt` boundary pass: advance the top frame's index past leaf keys
comparing equal to `lt` (the walk stops at the first out-of-range access,
whose comparison returns 1). -/
def ltAdvance : Nat → List Nat → Nat → Nat → Nat
  | 0, _, idx, _ => idx
  | fuel + 1, keys, idx, lt =>
    match keys.get? idx with
    | some k => if kcmp k lt = 0 then ltAdvance fuel keys (idx + 1) lt else idx
    | none => idx

/-- The per-element yield loop of `RabinBTree.scan`: yield `(key, value)`
pairs starting at `ptr`, at most `n`, stopping early (without yielding) at
the first key with `compare(gt, key) >= 0` resp. `compare(ge, key) > 0`. -/
def yieldPairsM (gt ge : Option Nat) : Nat → List Nat → List CID → Nat → List (Nat × CID)
  | 0, _, _, _ => []
  | n + 1, keys, hashes, ptr =>
    let key := keys.getD ptr 0
    let keep : Bool :=
      match gt with
      | some gv => decide (kcmp gv key < 0)
      | none =>
        match ge with
        | some gv => decide (kcmp gv key ≤ 0)
        | none => true
    if keep then (key, hashes.getD ptr (CID.item 0)) :: yieldPairsM gt ge n keys hashes (ptr + 1)
    else []

/-- Leftmost-leaf descent of the map cursor walk. -/
def descendLeftM : Nat → CID → List MFrame → Except Err (List MFrame)
  | 0, _, _ => .error .typeErr
  | fuel + 1, c, acc => do
    let nd ← parseM c
    let acc2 := (⟨0, nd.keys, nd.hashes⟩ : MFrame) :: acc
    if nd.leaf then .ok acc2
    else
      match nd.hashes with
      | [] => .error .typeErr
      | h :: _ => descendLeftM fuel h acc2

/-- Result of one walk step of the map cursor. -/
inductive MWalkRes where
  | next : List MFrame → MWalkRes
  | stop : MWalkRes
  | fail : Err → MWalkRes

/-- The "walk to next node" loop of `RabinBTree.scan` (same shape as the
list walk, including the TypeError on an empty stack). -/
def walkNextM : List MFrame → MWalkRes
  | [] => .fail .typeErr
  | top :: rest =>
    let idx2 := top.index + 1
    if idx2 ≥ top.hashes.length then
      match rest with
      | [] => .stop
      | _ => walkNextM rest
    else
      match top.hashes.get? idx2 with
      | none => .fail .typeErr
      | some c =>
        match descendLeftM (csize c) c ({ top with index := idx2 } :: rest) with
        | .error e => .fail e
        | .ok stack2 => .next stack2

/-- The yield loop of `RabinBTree.scan` (`while (count > 0)`), with the
count decremented by `n = min(count, frame.len - frame.index)` whether or
not the `gt`/`ge` test stopped the per-element loop early. -/
def scanLoopM (gt ge : Option Nat) :
    Nat → List MFrame → Option Int → List (Nat × CID) → List (Nat × CID) × Option Err
  | 0, _, _, acc => (acc, some .typeErr)
  | fuel + 1, stack, count, acc =>
    if ePos count then
      match stack with
      | [] => (acc, some .typeErr)
      | top :: rest =>
        let n := eMinNat count (top.hashes.length - top.index)
        let acc2 := acc ++ yieldPairsM gt ge n top.keys top.hashes top.index
        let count2 := eSubNat count n
        if ePos count2 then
          match walkNextM rest with
          | .stop => (acc2, none)
          | .fail e => (acc2, some e)
          | .next stack2 => scanLoopM gt ge fuel stack2 count2 acc2
        else (acc2, none)
    else (acc, none)

/-- The common tail of `RabinBTree.scan` after the descent: the empty-tree
check on the bottom frame, the `limit` clamp, the `lt` boundary pass, and
the yield loop. -/
def scanTailM (fuel : Nat) (opts : MOpts) (stack : List MFrame) (count : Option Int) :
    List (Nat × CID) × Option Err :=
  if (stack.getLast?.map fun f => f.hashes.isEmpty).getD true then ([], none)
  else
    let count2 := match opts.limit with
      | none => count
      | some _ => eMin count opts.limit
    let stack2 := match opts.lt with
      | none => stack
      | some lt =>
        match stack with
        | [] => []
        | top :: rest =>
          (⟨ltAdvance (top.keys.length + 1) top.keys top.index lt, top.keys, top.hashes⟩ :
              MFrame) :: rest
    scanLoopM opts.gt opts.ge fuel stack2 count2 []

/-- `RabinBTree.scan(root, options)`: `count` starts at `hi` (default
`Infinity`); a key start (`lt`/`le`) triggers the key descent, otherwise
the rank descent starting at `max(options.lo || 0, 0)` decrements `count`
by the start rank and an exhausted walk yields nothing; then the common
tail runs. -/
def scanMap (root : CID) (opts : MOpts) : List (Nat × CID) × Option Err :=
  let count0 : Option Int := opts.hi
  if opts.lt.isSome || opts.le.isSome then
    let key := (opts.lt.or opts.le).getD 0
    match scanKeyDescendM (csize root) root key count0 [] with
    | .error e => ([], some e)
    | .ok (count1, stack) => scanTailM (csize root + 1) opts stack count1
  else
    let ptr : Int := max (opts.lo.getD 0) 0
    let count1 := eSubNat count0 ptr.toNat
    match scanRankDescendM (csize root) root ptr.toNat [] with
    | .error e => ([], some e)
    | .ok none => ([], none)
    | .ok (some stack) => scanTailM (csize root + 1) opts stack count1

/-! ## Concrete instances used by the theorems -/

/-- A gear function sending every CID to `-2^31`: realizable, since `gear`
is the little-endian signed reading of the last four bytes of a CID, and a
hash digest ending in bytes `00 00 00` after a byte `80` (read in the
source's order) produces exactly `0x80 << 24 = -2^31` in JavaScript.  Under
this gear the fingerprint state after every step is `(fhi, flo) =
(0, 0x80000000)`, which passes both mask tests, so a boundary fires at the
first tested position: every chunk has exactly `MIN_SIZE + 1 = 65` children
(the final tail taken whole when fewer remain). -/
def gearNeg : CID → Int := fun _ => -2147483648

/-- A gear function sending every CID to `0` (all mask tests fail: the
carry into `fhi` is 1 at every step, so `fhi` holds all ones). -/
def gearZero : CID → Int := fun _ => 0

/-- The first `n` item CIDs, an `n`-element logical list. -/
def itemsN (n : Nat) : List CID := (List.range n).map CID.item

/-- A 130-element list: two 65-element chunks under `gearNeg`. -/
def xs130 : List CID := itemsN 130

/-- Guard-free variant of `chunkPassMGo` (see `chunkPassNoGuardGo`). -/
def chunkPassMNoGuardGo (g : CID → Int) (leaf : Bool) (cnt : List Nat) (ks : List Nat)
    (hs : List CID) : Nat → Nat → List Nat × List Nat × List CID
  | 0, _ => ([], [], [])
  | fuel + 1, lo =>
    if lo < hs.length then
      let hi := nextChunk g hs lo
      let rest := chunkPassMNoGuardGo g leaf cnt ks hs fuel hi
      (sumRange cnt lo hi :: rest.1,
       ks.getD lo 0 :: rest.2.1,
       serializeM leaf (sliceArr cnt lo hi) (sliceArr ks lo hi) (sliceArr hs lo hi) :: rest.2.2)
    else ([], [], [])

/-- Guard-free full map pass (see `chunkPassMNoGuardGo`). -/
def chunkPassMNoGuard (g : CID → Int) (leaf : Bool) (cnt : List Nat) (ks : List Nat)
    (hs : List CID) : List Nat × List Nat × List CID :=
  chunkPassMNoGuardGo g leaf cnt ks hs (hs.length + 1) 0

/-- Replace the deletion-window `stop` of the bottom (leaf) level of a
staged stack `payload :: bottom :: uppers`, leaving everything else
untouched.  `spliceList` builds its staged stack in exactly this shape, and
the extension machinery never reads that field, which is what makes
delete-count clamping sound. -/
def setStop1 (lvs : List LLevel) (s : Nat) : List LLevel :=
  match lvs with
  | p :: b :: rest => p :: { b with stop := s } :: rest
  | _ => lvs

/-- Working-copy well-formedness of the bottom (leaf) level: count and
child arrays stay the same length. -/
def bottomOK (l : LLevel) : Prop :=
  l.count.length = l.hashes.length

/-- Working-copy well-formedness of an interior level whose unconsumed
tail holds depth-`d` subtrees: arrays of equal length, the consumption
point inside the array, and every unconsumed child a nonempty well-formed
depth-`d` tree. -/
def upTailOK (d : Nat) (l : LLevel) : Prop :=
  l.count.length = l.hashes.length ∧ l.stop ≤ l.hashes.length ∧
    ∀ j h, l.stop ≤ j → l.hashes.get? j = some h → wfLb d h = true ∧ 0 < lsizeL h

/-- `upTailOK` along the interior levels, one depth per level. -/
def upsOK : Nat → List LLevel → Prop
  | _, [] => True
  | d, l :: rest => upTailOK d l ∧ upsOK (d + 1) rest

/-- Elements still reachable by extension from an interior level: the
logical sizes of its unconsumed children. -/
def capTail (l : LLevel) : Nat :=
  ((l.hashes.drop l.stop).map lsizeL).sum

/-- Total capacity of the interior levels. -/
def capOf (uppers : List LLevel) : Nat :=
  (uppers.map capTail).sum

/-- The upward extension of `extendLevel`, rephrased on the chain of levels
strictly above the level being extended (parent first, root level last):
return the CID the parent hands down (still unparsed — `extendPull` parses
it at the calling level) together with the updated chain, or `none` once
the whole chain is exhausted.  `extendLevel fuel levels level` is exactly
this on `levels.drop (level + 1)` followed by the parse-and-append at
`level` (theorem `extendLevel_chain` below). -/
def extendChain : Nat → List LLevel → Except Err (Option (CID × List LLevel))
  | 0, _ => .error .typeErr
  | _ + 1, [] => .ok none
  | fuel + 1, parent :: rest =>
    if parent.stop = parent.count.length then
      match extendChain fuel rest with
      | .error e => .error e
      | .ok none => .ok none
      | .ok (some (cid2, rest2)) =>
        match parseL cid2 with
        | .error e => .error e
        | .ok nd2 =>
          let parent2 : LLevel :=
            ⟨parent.start, parent.stop, parent.count ++ nd2.count,
              parent.hashes ++ nd2.hashes⟩
          match parent2.hashes.get? parent2.stop with
          | none => .error .typeErr
          | some cid => .ok (some (cid, { parent2 with stop := parent2.stop + 1 } :: rest2))
    else
      match parent.hashes.get? parent.stop with
      | none => .error .typeErr
      | some cid => .ok (some (cid, { parent with stop := parent.stop + 1 } :: rest))

/-! # Theorems -/

set_option maxRecDepth 10000

/-- C1.  The canonicalization guarantee fails on the code: the sequence
`xs130.take 10 ++ xs130.drop 11` is reached from the empty root by the two
splices `splice(empty, 0, 0, ...xs130)` (which the code turns into
`create(xs130)`) and `splice(·, 10, 1)`, yet the root produced by that fold
differs from `create` of the same logical sequence — the fold result has
leaf partition `[64, 65]` while `create` re-chunks to `[65, 64]`, because
`nextChunk` never returns the negative sentinel that the rebuild's
`while (hi < 0) extendLevel(...)` re-chunking branches wait for, so a
rebuild never pulls right-hand siblings across the splice seam.  The second
conjunct checks the fold result has exactly the edited logical contents, so
the two roots disagree purely as representations of equal sequences. -/
theorem c1_canonicalization_code_bug :
    spliceList gearNeg (serializeL true [] []) 0 0 xs130 =
      Except.ok (createList gearNeg xs130) ∧
    (spliceList gearNeg (createList gearNeg xs130) 10 1 []).toOption.map contentsL =
      some (xs130.take 10 ++ xs130.drop 11) ∧
    spliceList gearNeg (createList gearNeg xs130) 10 1 [] ≠
      Except.ok (createList gearNeg (xs130.take 10 ++ xs130.drop 11)) := by
  refine ⟨by decide, by decide, by decide⟩

/-- C2.  `scan(create(xs), {})` does not yield `xs` and terminate: when
`create` leaves a single leaf root (any list of 1 to 64 elements does), the
cursor pops the only stack frame while yielding, the unlimited count stays
`Infinity`, and the walk step executes `stack[stack.length - 1].index += 1`
on an empty stack — a TypeError after the final yield.  Evaluated at
`xs = [item 0]`: the root is the expected well-formed singleton leaf, and
the scan yields the element and then raises. -/
theorem c2_scan_create_code_bug :
    createList gearZero [CID.item 0] = serializeL true [1] [CID.item 0] ∧
    wfLb 0 (createList gearZero [CID.item 0]) = true ∧
    scanList (createList gearZero [CID.item 0]) {} =
      ([CID.item 0], some Err.typeErr) := by
  refine ⟨by decide, by decide, by decide⟩

/-- C4.  `eq(upsert(r, k, v), k) = v` fails on the code: upserting into the
one-entry map `create({5 ↦ item 7})` (replacing the key's value) rebuilds a
one-entry leaf and then the singleton-collapse loop of `_rebuild`, which
tests only `hashes.length === 1` and not the leaf flag, steps *through* the
singleton leaf into the stored value block; parsing that data block throws
`invalid RabinBTree node`, so `upsert` raises instead of returning a root
for `eq` to read. -/
theorem c4_eq_upsert_code_bug :
    createMap gearZero [(5, CID.item 7)] = serializeM true [1] [5] [CID.item 7] ∧
    wfMb 0 (createMap gearZero [(5, CID.item 7)]) = true ∧
    upsertMap gearZero (createMap gearZero [(5, CID.item 7)]) 5 (CID.item 9) =
      Except.error Err.invalidNode := by
  refine ⟨by decide, by decide, by decide⟩

/-- C5 counterexample.  Point access out of range on a map does *not* yield
`None`: on the one-entry map `create({5 ↦ item 7})` (size 1), `at(root, 5)`
exhausts the count walk and throws `out of bounds` — the same bounds error
as the list — rather than returning an empty result. -/
theorem c5_counterexample :
    sizeMap (createMap gearZero [(5, CID.item 7)]) = Except.ok 1 ∧
    atMap (createMap gearZero [(5, CID.item 7)]) 5 = Except.error Err.outOfBounds := by
  refine ⟨by decide, by decide⟩

/-- C6 counterexample.  `splice` does not fail with OutOfBounds whenever
`start > size`: on the empty root (size 0) with `start = 5`, the empty-root
special case fires before any bounds check and the splice degenerates to
`create(items)`, succeeding. -/
theorem c6_counterexample :
    sizeList (serializeL true [] []) = Except.ok 0 ∧
    spliceList gearZero (serializeL true [] []) 5 0 [] =
      Except.ok (serializeL true [] []) := by
  refine ⟨by decide, by decide⟩

/-- If the boundary scan fires at `p`, then `p` lies in
`(ptr, ptr + items.length]`. -/
theorem boundaryScan_bounds (g : CID → Int) :
    ∀ (items : List CID) (s : Nat × Nat) (ptr p : Nat),
      boundaryScan g s items ptr = some p → ptr < p ∧ p ≤ ptr + items.length := by
  intro items
  induction items with
  | nil => intro s ptr p h; simp [boundaryScan] at h
  | cons c rest ih =>
    intro s ptr p h
    simp only [boundaryScan] at h
    by_cases hb : isBoundary (gearStep g s c)
    · simp only [hb, if_true] at h
      obtain rfl : ptr + 1 = p := Option.some.inj h
      simp only [List.length_cons]
      omega
    · simp only [hb, if_false] at h
      have := ih _ _ _ h
      simp only [List.length_cons]
      omega

/-- `nextChunk` never cuts past the end of the data. -/
theorem nextChunk_ub (g : CID → Int) (data : List CID) (start : Nat) :
    nextChunk g data start ≤ data.length := by
  unfold nextChunk
  by_cases hn : min (data.length - start) MAX_SIZE < MIN_SIZE
  · simp [hn]
  · simp only [hn, if_false]
    have h64 : MIN_SIZE ≤ data.length - start ∧ MIN_SIZE ≤ MAX_SIZE := by
      constructor <;> omega
    cases hb : boundaryScan g
        (warmup g ((data.drop start).take MIN_SIZE) (0, 0))
        (((data.drop start).drop MIN_SIZE).take (min (data.length - start) MAX_SIZE - MIN_SIZE))
        (start + MIN_SIZE) with
    | some p =>
      have hbd := boundaryScan_bounds g _ _ _ _ hb
      have hlen : (((data.drop start).drop MIN_SIZE).take
          (min (data.length - start) MAX_SIZE - MIN_SIZE)).length ≤
          min (data.length - start) MAX_SIZE - MIN_SIZE := by
        simp [List.length_take]
      simp only [hb]
      have hm : MIN_SIZE = 64 := rfl
      have hM : MAX_SIZE = 1024 := rfl
      omega
    | none =>
      simp only [hb]
      have hm : MIN_SIZE = 64 := rfl
      have hM : MAX_SIZE = 1024 := rfl
      omega

/-- `nextChunk` always advances past its start position. -/
theorem nextChunk_lb (g : CID → Int) (data : List CID) (start : Nat)
    (h : start < data.length) : start < nextChunk g data start := by
  unfold nextChunk
  by_cases hn : min (data.length - start) MAX_SIZE < MIN_SIZE
  · simpa [hn] using h
  · simp only [hn, if_false]
    cases hb : boundaryScan g
        (warmup g ((data.drop start).take MIN_SIZE) (0, 0))
        (((data.drop start).drop MIN_SIZE).take (min (data.length - start) MAX_SIZE - MIN_SIZE))
        (start + MIN_SIZE) with
    | some p =>
      have hbd := boundaryScan_bounds g _ _ _ _ hb
      simp only [hb]
      have hm : MIN_SIZE = 64 := rfl
      have hM : MAX_SIZE = 1024 := rfl
      omega
    | none =>
      simp only [hb]
      have : MIN_SIZE ≤ min (data.length - start) MAX_SIZE := by omega
      have : MIN_SIZE = 64 := rfl
      omega

/-- C3.  Chunker contract: for `from < data.length`, `nextChunk` returns an
index `hi` with `from < hi ≤ data.length`; when fewer than `MIN_SIZE = 64`
children remain past `from` it returns `data.length` (the final tail taken
whole); and when no mask boundary fires it returns
`from + min(data.length - from, MAX_SIZE)` (the hard cut, which in the
short-tail case coincides with `data.length`). -/
theorem c3_chunker_contract (g : CID → Int) (data : List CID) (i : Nat)
    (h : i < data.length) :
    i < nextChunk g data i ∧ nextChunk g data i ≤ data.length ∧
    (data.length - i < MIN_SIZE → nextChunk g data i = data.length) ∧
    (noBoundaryWithin g data i = true →
      nextChunk g data i = i + min (data.length - i) MAX_SIZE) := by
  refine ⟨nextChunk_lb g data i h, nextChunk_ub g data i, ?_, ?_⟩
  · intro hsmall
    unfold nextChunk
    have : min (data.length - i) MAX_SIZE < MIN_SIZE := by
      have : MAX_SIZE = 1024 := rfl
      omega
    simp [this]
  · intro hnb
    unfold noBoundaryWithin at hnb
    unfold nextChunk
    by_cases hn : min (data.length - i) MAX_SIZE < MIN_SIZE
    · simp only [hn, if_true]
      have : MAX_SIZE = 1024 := rfl
      have : MIN_SIZE = 64 := rfl
      omega
    · simp only [hn, if_false]
      simp only [decide_eq_true_eq, Bool.or_eq_true, decide_eq_true_iff] at hnb
      rcases hnb with hnb | hnb
      · exact absurd hnb hn
      · rw [Option.isNone_iff_eq_none] at hnb
        rw [List.drop_drop] at hnb
        rw [Prod.mk_zero_zero] at hnb
        simp [hnb]

/-- C3 witness: a concrete two-element array at `from = 0` (short tail:
the whole remainder is one chunk, which is also the hard cut). -/
theorem c3_witness :
    (0 < (itemsN 2).length) ∧
    (0 < nextChunk gearZero (itemsN 2) 0 ∧ nextChunk gearZero (itemsN 2) 0 ≤ (itemsN 2).length ∧
    ((itemsN 2).length - 0 < MIN_SIZE → nextChunk gearZero (itemsN 2) 0 = (itemsN 2).length) ∧
    (noBoundaryWithin gearZero (itemsN 2) 0 = true →
      nextChunk gearZero (itemsN 2) 0 = 0 + min ((itemsN 2).length - 0) MAX_SIZE)) :=
  ⟨by decide, c3_chunker_contract gearZero (itemsN 2) 0 (by decide)⟩

/-- The list chunking pass is unchanged when the `if (hi < 0)` guard is
removed (any fuel, any start). -/
theorem chunkPassGo_eq_noGuard (g : CID → Int) (leaf : Bool) (cnt : List Nat)
    (hs : List CID) : ∀ (fuel lo : Nat),
    chunkPassGo g leaf cnt hs fuel lo = chunkPassNoGuardGo g leaf cnt hs fuel lo := by
  intro fuel
  induction fuel with
  | zero => intro lo; rfl
  | succ f ih =>
    intro lo
    simp only [chunkPassGo, chunkPassNoGuardGo]
    have hng : ¬((nextChunk g hs lo : Int) < 0) := by
      simp
    simp [hng, ih]

/-- The map chunking pass is unchanged when the `if (hi < 0)` guard is
removed (any fuel, any start). -/
theorem chunkPassMGo_eq_noGuard (g : CID → Int) (leaf : Bool) (cnt ks : List Nat)
    (hs : List CID) : ∀ (fuel lo : Nat),
    chunkPassMGo g leaf cnt ks hs fuel lo = chunkPassMNoGuardGo g leaf cnt ks hs fuel lo := by
  intro fuel
  induction fuel with
  | zero => intro lo; rfl
  | succ f ih =>
    intro lo
    simp only [chunkPassMGo, chunkPassMNoGuardGo]
    have hng : ¬((nextChunk g hs lo : Int) < 0) := by
      simp
    simp [hng, ih]

/-- C9.  `nextChunk` never returns a negative value (its results are counts
and indices of the input array), so the `hi < 0` re-chunking branches in
`create` and in the rebuild loops — the branches guarding the
`extendLevel`/`_extend` calls that would pull in right-hand siblings — are
unreachable: removing the guard from the chunking pass of `create` and of
`_rebuild` (list and map alike) changes nothing. -/
theorem c9_chunker_nonneg :
    (∀ (g : CID → Int) (data : List CID) (i : Nat), ¬((nextChunk g data i : Int) < 0)) ∧
    (∀ (g : CID → Int) (leaf : Bool) (cnt : List Nat) (hs : List CID),
      chunkPass g leaf cnt hs = chunkPassNoGuard g leaf cnt hs) ∧
    (∀ (g : CID → Int) (leaf : Bool) (cnt ks : List Nat) (hs : List CID),
      chunkPassM g leaf cnt ks hs = chunkPassMNoGuard g leaf cnt ks hs) := by
  refine ⟨fun g data i => by simp, ?_, ?_⟩
  · intro g leaf cnt hs
    exact chunkPassGo_eq_noGuard g leaf cnt hs (hs.length + 1) 0
  · intro g leaf cnt ks hs
    exact chunkPassMGo_eq_noGuard g leaf cnt ks hs (hs.length + 1) 0

/-- The strict count walk exhausts a node exactly when the remaining rank
is at least the sum of the counts. -/
theorem locateLt_none_iff :
    ∀ (l : List (Nat × CID)) (ptr i : Nat),
      locateLt l ptr i = none ↔ (l.map Prod.fst).sum ≤ ptr := by
  intro l
  induction l with
  | nil => intro ptr i; simp [locateLt]
  | cons ch rest ih =>
    intro ptr i
    obtain ⟨c, h⟩ := ch
    simp only [locateLt, List.map_cons, List.sum_cons]
    by_cases hc : ptr < c
    · simp only [hc, if_true]
      constructor
      · intro hfalse; exact absurd hfalse (by simp)
      · intro hle; omega
    · simp only [hc, if_false]
      rw [ih]
      omega

/-- Successful parses have matching count/children lengths. -/
theorem parseL_ok_lengths {r : CID} {nd : LNode} (h : parseL r = .ok nd) :
    nd.count.length = nd.hashes.length := by
  cases r with
  | item n => simp [parseL] at h
  | node l cnt hs =>
    simp only [parseL] at h
    split at h
    · cases h
      simp
      omega
    · cases h
  | mnode l cnt ks hs => simp [parseL] at h

/-- Successful map parses have matching count/keys/children lengths. -/
theorem parseM_ok_lengths {r : CID} {nd : MNode} (h : parseM r = .ok nd) :
    nd.count.length = nd.keys.length ∧ nd.count.length = nd.hashes.length := by
  cases r with
  | item n => simp [parseM] at h
  | node l cnt hs => simp [parseM] at h
  | mnode l cnt ks hs =>
    simp only [parseM] at h
    split at h
    · cases h
      constructor <;> simp <;> omega
    · cases h

/-- The first projection of a zip of equal-length lists. -/
theorem zip_map_fst {l1 : List Nat} {l2 : List CID} (h : l1.length = l2.length) :
    (l1.zip l2).map Prod.fst = l1 :=
  List.map_fst_zip l1 l2 (le_of_eq h)

/-- Every CID has positive structural size. -/
theorem csize_pos (c : CID) : 0 < csize c := by
  cases c <;> simp [csize]

/-- C5 (amended).  Out-of-range point access raises a bounds error on
*both* collections: for a parsed root and a rank below 0 or at least
`size(root)` (the sum of the root's counts, which is what `size` returns),
`at` throws `out of bounds` — the map does not yield `None`. -/
theorem c5_amended (rl rm : CID) (ndl : LNode) (ndm : MNode) (i j : Int)
    (hl : parseL rl = .ok ndl) (hm : parseM rm = .ok ndm)
    (hi : i < 0 ∨ (ndl.count.sum : Int) ≤ i)
    (hj : j < 0 ∨ (ndm.count.sum : Int) ≤ j) :
    atList rl i = .error .outOfBounds ∧ atMap rm j = .error .outOfBounds := by
  constructor
  · unfold atList
    rcases hi with hi | hi
    · simp [hi]
    · have hnonneg : ¬(i < 0) := by omega
      simp only [hnonneg, if_false]
      obtain ⟨k, hk⟩ : ∃ k, csize rl = k + 1 :=
        ⟨csize rl - 1, by have := csize_pos rl; omega⟩
      rw [hk]
      simp only [atListGo, hl, bind, Except.bind]
      have hnone : locateLt (ndl.count.zip ndl.hashes) i.toNat 0 = none := by
        rw [locateLt_none_iff, zip_map_fst (parseL_ok_lengths hl)]
        omega
      simp [hnone]
  · unfold atMap
    rcases hj with hj | hj
    · simp [hj]
    · have hnonneg : ¬(j < 0) := by omega
      simp only [hnonneg, if_false]
      obtain ⟨k, hk⟩ : ∃ k, csize rm = k + 1 :=
        ⟨csize rm - 1, by have := csize_pos rm; omega⟩
      rw [hk]
      simp only [atMapGo, hm, bind, Except.bind]
      have hnone : locateLt (ndm.count.zip ndm.hashes) j.toNat 0 = none := by
        rw [locateLt_none_iff, zip_map_fst (parseM_ok_lengths hm).2]
        omega
      simp [hnone]

/-- C5 witness: a one-element list probed at rank 5 and a one-entry map
probed at rank `-3`. -/
theorem c5_amended_witness :
    atList (serializeL true [1] [CID.item 0]) 5 = Except.error Err.outOfBounds ∧
    atMap (serializeM true [1] [4] [CID.item 2]) (-3) = Except.error Err.outOfBounds :=
  c5_amended (serializeL true [1] [CID.item 0]) (serializeM true [1] [4] [CID.item 2])
    ⟨true, [1], [CID.item 0]⟩ ⟨true, [1], [4], [CID.item 2]⟩ 5 (-3)
    (by decide) (by decide) (by decide) (by decide)

/-- C10.  A scan whose start rank `lo` is at least `size(root)` yields no
items and terminates normally (no bounds error), for both collections: the
initial rank descent exhausts the root's count walk and the generator
returns before yielding. -/
theorem c10_scan_out_of_range (rl rm : CID) (ndl : LNode) (ndm : MNode) (l m : Int)
    (hl : parseL rl = .ok ndl) (hm : parseM rm = .ok ndm)
    (hli : (ndl.count.sum : Int) ≤ l) (hmi : (ndm.count.sum : Int) ≤ m) :
    scanList rl { lo := some l } = ([], none) ∧
    scanMap rm { lo := some m } = ([], none) := by
  constructor
  · unfold scanList
    obtain ⟨k, hk⟩ : ∃ k, csize rl = k + 1 :=
      ⟨csize rl - 1, by have := csize_pos rl; omega⟩
    rw [hk]
    have hdesc : scanDescendL (k + 1) rl (max l 0).toNat [] = .ok none := by
      simp only [scanDescendL, hl, bind, Except.bind]
      have hnone : locateLt (ndl.count.zip ndl.hashes) (max l 0).toNat 0 = none := by
        rw [locateLt_none_iff, zip_map_fst (parseL_ok_lengths hl)]
        omega
      simp [hnone]
    simp only [Option.getD_some]
    simp [hdesc, eMin, eSubPoint, eNeg]
  · unfold scanMap
    obtain ⟨k, hk⟩ : ∃ k, csize rm = k + 1 :=
      ⟨csize rm - 1, by have := csize_pos rm; omega⟩
    rw [hk]
    have hdesc : scanRankDescendM (k + 1) rm (max m 0).toNat [] = .ok none := by
      simp only [scanRankDescendM, hm, bind, Except.bind]
      have hnone : locateLt (ndm.count.zip ndm.hashes) (max m 0).toNat 0 = none := by
        rw [locateLt_none_iff, zip_map_fst (parseM_ok_lengths hm).2]
        omega
      simp [hnone]
    simp only [Option.getD_some]
    simp [hdesc]

/-- C10 witness: a two-element list and a one-entry map scanned from
start ranks equal to resp. beyond their sizes. -/
theorem c10_witness :
    scanList (serializeL true [1, 1] [CID.item 0, CID.item 1]) { lo := some 2 } = ([], none) ∧
    scanMap (serializeM true [1] [4] [CID.item 2]) { lo := some 9 } = ([], none) :=
  c10_scan_out_of_range (serializeL true [1, 1] [CID.item 0, CID.item 1])
    (serializeM true [1] [4] [CID.item 2])
    ⟨true, [1, 1], [CID.item 0, CID.item 1]⟩ ⟨true, [1], [4], [CID.item 2]⟩ 2 9
    (by decide) (by decide) (by decide) (by decide)

/-- The comparator returns 0 exactly on equal keys. -/
theorem kcmp_eq_zero_iff (a b : Nat) : kcmp a b = 0 ↔ a = b := by
  unfold kcmp
  split
  · constructor
    · intro h; cases h
    · intro h; omega
  · split
    · simp_all
    · constructor
      · intro h; cases h
      · intro h; omega

/-- `findPred` stays within `[-1, items.length)`. -/
theorem findPred_bounds (items : List Nat) (key : Nat) :
    -1 ≤ findPred items key ∧ findPred items key < (items.length : Int) := by
  unfold findPred
  have h := (List.takeWhile_sublist (l := items)
    (p := fun a => decide (kcmp a key ≤ 0))).length_le
  constructor <;> omega

/-- A structural child weighs no more than the children list. -/
theorem csize_le_of_mem : ∀ (cs : CIDs) (c : CID), c ∈ cs.toList → csize c ≤ csizes cs
  | .nil, c, h => by simp [CIDs.toList] at h
  | .cons x xs, c, h => by
    simp only [CIDs.toList, List.mem_cons] at h
    rcases h with rfl | h
    · simp only [csizes]; omega
    · have := csize_le_of_mem xs c h
      simp only [csizes]
      omega

/-- Map contents of a child are contents of the children list. -/
theorem mem_mcontentsList : ∀ (cs : CIDs) (c : CID), c ∈ cs.toList →
    ∀ p, p ∈ mcontents c → p ∈ mcontentsList cs
  | .nil, c, h => by simp [CIDs.toList] at h
  | .cons x xs, c, h => by
    intro p hp
    simp only [CIDs.toList, List.mem_cons] at h
    simp only [mcontentsList, List.mem_append]
    rcases h with rfl | h
    · exact Or.inl hp
    · exact Or.inr (mem_mcontentsList xs c h p hp)

/-- `RabinBTree._levels` descent on a well-formed tree: it succeeds, the
bottom (leaf) level is first, and a nonempty window there (`start ≠ end`)
certifies the searched key occurs in the tree. -/
theorem mdescend_spec : ∀ (d : Nat) (r : CID) (key : Nat) (fuel : Nat),
    wfMb d r = true → csize r ≤ fuel →
    ∃ lvl rest, mdescend fuel r key = .ok (lvl :: rest) ∧
      (lvl.start ≠ lvl.stop → key ∈ mkeys r) := by
  intro d
  induction d with
  | zero =>
    intro r key fuel hwf hfuel
    match r with
    | .item _ => simp [wfMb] at hwf
    | .node _ _ _ => simp [wfMb] at hwf
    | .mnode false _ _ _ => simp [wfMb] at hwf
    | .mnode true cnt ks hs =>
      simp only [wfMb, Bool.and_eq_true, beq_iff_eq] at hwf
      obtain ⟨hc, hk⟩ := hwf
      obtain ⟨f, rfl⟩ : ∃ f, fuel = f + 1 := by
        have := csize_pos (CID.mnode true cnt ks hs)
        exact ⟨fuel - 1, by omega⟩
      have hparse : parseM (CID.mnode true cnt ks hs) =
          .ok ⟨true, cnt.map (· % 4294967296), ks, hs.toList⟩ := by
        simp [parseM, hc, hk]
      simp only [mdescend, hparse, bind, Except.bind]
      set idx := findPred ks key with hidx
      have hb := findPred_bounds ks key
      by_cases hge : 0 ≤ idx
      · by_cases hmatch : kcmp (ks.getD idx.toNat 0) key = 0
        · refine ⟨⟨idx.toNat, (idx + 1).toNat, cnt.map (· % 4294967296), ks, hs.toList⟩,
            [], by simp only [List.getD_eq_getElem?_getD] at hmatch; simp [hge, hmatch], ?_⟩
          intro _
          have hkey : ks.getD idx.toNat 0 = key := (kcmp_eq_zero_iff _ _).mp hmatch
          have hlt : idx.toNat < ks.length := by omega
          have hmem : ks.getD idx.toNat 0 ∈ ks := by
            rw [List.getD_eq_getElem?_getD, List.getElem?_eq_getElem hlt]
            exact List.getElem_mem hlt
          rw [hkey] at hmem
          unfold mkeys
          simp only [mcontents]
          rw [zip_map_fst (by omega)]
          exact hmem
        · refine ⟨⟨idx.toNat + 1, (idx + 1).toNat, cnt.map (· % 4294967296), ks, hs.toList⟩,
            [], by simp only [List.getD_eq_getElem?_getD] at hmatch; simp [hge, hmatch], ?_⟩
          intro hss
          exfalso
          apply hss
          show idx.toNat + 1 = (idx + 1).toNat
          omega
      · refine ⟨⟨idx.toNat, (idx + 1).toNat, cnt.map (· % 4294967296), ks, hs.toList⟩,
          [], by simp [hge], ?_⟩
        intro hss
        exfalso
        apply hss
        show idx.toNat = (idx + 1).toNat
        omega
  | succ d ih =>
    intro r key fuel hwf hfuel
    match r with
    | .item _ => simp [wfMb] at hwf
    | .node _ _ _ => simp [wfMb] at hwf
    | .mnode true _ _ _ => simp [wfMb] at hwf
    | .mnode false cnt ks hs =>
      simp only [wfMb, Bool.and_eq_true, beq_iff_eq, Bool.not_eq_true',
        List.all_eq_true] at hwf
      obtain ⟨⟨⟨hc, hk⟩, hne⟩, hall⟩ := hwf
      obtain ⟨f, rfl⟩ : ∃ f, fuel = f + 1 := by
        have := csize_pos (CID.mnode false cnt ks hs)
        exact ⟨fuel - 1, by omega⟩
      have hparse : parseM (CID.mnode false cnt ks hs) =
          .ok ⟨false, cnt.map (· % 4294967296), ks, hs.toList⟩ := by
        simp [parseM, hc, hk]
      simp only [mdescend, hparse, bind, Except.bind]
      set idx := findPred ks key with hidx
      have hb := findPred_bounds ks key
      have hlen0 : 0 < hs.toList.length := by
        cases h : hs.toList with
        | nil => rw [h] at hne; simp at hne
        | cons a l => simp [h]
      have hilt : idx.toNat < hs.toList.length := by omega
      obtain ⟨child, hchild⟩ : ∃ child, hs.toList.get? idx.toNat = some child :=
        ⟨hs.toList.get ⟨idx.toNat, hilt⟩, List.get?_eq_get hilt⟩
      have hmem : child ∈ hs.toList := by
        have := List.get?_mem hchild
        exact this
      have hcwf : wfMb d child = true := hall child hmem
      have hcsize : csize child ≤ f := by
        have h1 := csize_le_of_mem hs child hmem
        have : csize (CID.mnode false cnt ks hs) = 1 + csizes hs := rfl
        omega
      obtain ⟨lvl, rest, hrec, himp⟩ := ih child key f hcwf hcsize
      refine ⟨lvl, rest ++ [⟨idx.toNat, idx.toNat + 1, cnt.map (· % 4294967296), ks,
        hs.toList⟩], ?_, ?_⟩
      · simp only [hchild, hrec, bind, Except.bind]
        rfl
      · intro hss
        have hkmem := himp hss
        unfold mkeys at hkmem ⊢
        simp only [mcontents]
        obtain ⟨p, hp, hfst⟩ := List.mem_map.mp hkmem
        exact List.mem_map.mpr ⟨p, mem_mcontentsList hs child hmem p hp, hfst⟩

/-- `RabinBTree._levels` on a well-formed nonempty tree: the stack is the
empty payload level, the leaf level, then the interior levels; a nonempty
leaf window certifies the key occurs in the tree. -/
theorem mlevels_spec (d : Nat) (r : CID) (key : Nat)
    (hwf : wfMb d r = true) (hne : mcontents r ≠ []) :
    ∃ lvl rest, mlevels r key = .ok ((⟨0, 0, [], [], []⟩ : MLevel) :: lvl :: rest) ∧
      (lvl.start ≠ lvl.stop → key ∈ mkeys r) := by
  have hshape : ∃ cnt ks hs, r = CID.mnode (d == 0) cnt ks hs ∧
      cnt.length = hs.toList.length ∧ ks.length = hs.toList.length ∧
      hs.toList.length ≠ 0 := by
    cases d with
    | zero =>
      match r with
      | .item _ => simp [wfMb] at hwf
      | .node _ _ _ => simp [wfMb] at hwf
      | .mnode false _ _ _ => simp [wfMb] at hwf
      | .mnode true cnt ks hs =>
        simp only [wfMb, Bool.and_eq_true, beq_iff_eq] at hwf
        refine ⟨cnt, ks, hs, rfl, hwf.1, hwf.2, ?_⟩
        intro hlen
        apply hne
        simp only [mcontents]
        have : hs.toList = [] := List.eq_nil_of_length_eq_zero hlen
        simp [this]
    | succ d =>
      match r with
      | .item _ => simp [wfMb] at hwf
      | .node _ _ _ => simp [wfMb] at hwf
      | .mnode true _ _ _ => simp [wfMb] at hwf
      | .mnode false cnt ks hs =>
        simp only [wfMb, Bool.and_eq_true, beq_iff_eq, Bool.not_eq_true',
          List.all_eq_true] at hwf
        refine ⟨cnt, ks, hs, rfl, hwf.1.1.1, hwf.1.1.2, ?_⟩
        intro hlen
        have : hs.toList = [] := List.eq_nil_of_length_eq_zero hlen
        rw [this] at hwf
        simp [List.isEmpty] at hwf
  obtain ⟨cnt, ks, hs, rfl, hc, hk, hlen⟩ := hshape
  have hparse : parseM (CID.mnode (d == 0) cnt ks hs) =
      .ok ⟨(d == 0), cnt.map (· % 4294967296), ks, hs.toList⟩ := by
    simp [parseM, hc, hk]
  obtain ⟨lvl, rest, hdesc, himp⟩ :=
    mdescend_spec d (CID.mnode (d == 0) cnt ks hs) key (csize (CID.mnode (d == 0) cnt ks hs))
      hwf (le_refl _)
  refine ⟨lvl, rest, ?_, himp⟩
  unfold mlevels
  simp only [hparse, bind, Except.bind, hdesc]
  simp [hlen]

/-- C7.  `remove` of an absent key from a nonempty well-formed map root is
a no-op returning the original root CID: the descent's leaf window is empty
(`start == end`), so `remove` returns `root` before any rebuild. -/
theorem c7_remove_absent (g : CID → Int) (d : Nat) (r : CID) (k : Nat)
    (hwf : wfMb d r = true) (hne : mcontents r ≠ []) (habs : k ∉ mkeys r) :
    removeMap g r k = .ok r := by
  obtain ⟨lvl, rest, hlev, himp⟩ := mlevels_spec d r k hwf hne
  have heq : lvl.start = lvl.stop := by
    by_contra hss
    exact habs (himp hss)
  unfold removeMap
  simp only [hlev, bind, Except.bind]
  have hlennot : ¬((⟨0, 0, [], [], []⟩ : MLevel) :: lvl :: rest).length ≤ 1 := by
    simp
  simp [hlennot, heq]

/-- C7 witness: removing the absent key 4 from the two-entry leaf map
`{3 ↦ item 1, 5 ↦ item 2}` returns the same root. -/
theorem c7_witness :
    removeMap gearZero (serializeM true [1, 1] [3, 5] [CID.item 1, CID.item 2]) 4 =
      Except.ok (serializeM true [1, 1] [3, 5] [CID.item 1, CID.item 2]) :=
  c7_remove_absent gearZero 0 (serializeM true [1, 1] [3, 5] [CID.item 1, CID.item 2]) 4
    (by decide) (by decide) (by decide)

/-- Structural size of a children list is the sum over its elements. -/
theorem csizes_toList : ∀ (cs : CIDs), (cs.toList.map csize).sum = csizes cs
  | .nil => rfl
  | .cons c cs => by
    simp only [CIDs.toList, List.map_cons, List.sum_cons, csizes]
    rw [csizes_toList cs]

/-- Length of the concatenated contents of a children list. -/
theorem contentsLs_length : ∀ (cs : CIDs),
    (contentsLs cs).length = (cs.toList.map lsizeL).sum
  | .nil => rfl
  | .cons c cs => by
    simp only [contentsLs, List.length_append, CIDs.toList, List.map_cons, List.sum_cons]
    rw [contentsLs_length cs]
    rfl

/-- List-node parse failures are always `invalidNode`. -/
theorem parseL_error {c : CID} {e : Err} (h : parseL c = .error e) : e = .invalidNode := by
  cases c with
  | item _ =>
    simp only [parseL, Except.error.injEq] at h
    exact h.symm
  | node l cnt hs =>
    simp only [parseL] at h
    split at h
    · cases h
    · cases h; rfl
  | mnode _ _ _ _ =>
    simp only [parseL, Except.error.injEq] at h
    exact h.symm

/-- The non-strict count walk finds a slot whenever the remaining rank is
at most the sum of the counts and the node is nonempty; the result carries
the absolute index, the count and child at that index, and the residual,
with the consumed prefix accounted for. -/
theorem locateLe_found : ∀ (l : List (Nat × CID)) (ptr i0 : Nat),
    ptr ≤ (l.map Prod.fst).sum → l ≠ [] →
    ∃ i c h p', locateLe l ptr i0 = some (i, c, h, p') ∧ p' ≤ c ∧ i0 ≤ i ∧
      i - i0 < l.length ∧ l.get? (i - i0) = some (c, h) ∧
      ((l.take (i - i0)).map Prod.fst).sum + p' = ptr := by
  intro l
  induction l with
  | nil => intro ptr i0 _ hne; exact absurd rfl hne
  | cons ch rest ih =>
    intro ptr i0 hsum hne
    obtain ⟨c, h⟩ := ch
    simp only [List.map_cons, List.sum_cons] at hsum
    by_cases hc : ptr ≤ c
    · refine ⟨i0, c, h, ptr, ?_, hc, le_refl _, ?_, ?_, ?_⟩
      · simp [locateLe, hc]
      · simp
      · simp
      · simp
    · have hrest : ptr - c ≤ (rest.map Prod.fst).sum := by omega
      have hrne : rest ≠ [] := by
        intro hr
        rw [hr] at hrest
        simp at hrest
        omega
      obtain ⟨i, c2, h2, p', heq, hpc, hi0, hilt, hget, hacc⟩ := ih (ptr - c) (i0 + 1) hrest hrne
      refine ⟨i, c2, h2, p', ?_, hpc, by omega, ?_, ?_, ?_⟩
      · simp [locateLe, hc, heq]
      · simp only [List.length_cons]; omega
      · have : i - i0 = (i - (i0 + 1)) + 1 := by omega
        rw [this]
        simpa using hget
      · have : i - i0 = (i - (i0 + 1)) + 1 := by omega
        rw [this]
        simp only [List.take_succ_cons, List.map_cons, List.sum_cons]
        omega

/-- The non-strict count walk exhausts a node whenever the remaining rank
exceeds the sum of the counts. -/
theorem locateLe_none : ∀ (l : List (Nat × CID)) (ptr i0 : Nat),
    (l.map Prod.fst).sum < ptr → locateLe l ptr i0 = none := by
  intro l
  induction l with
  | nil => intro ptr i0 _; rfl
  | cons ch rest ih =>
    intro ptr i0 hsum
    obtain ⟨c, h⟩ := ch
    simp only [List.map_cons, List.sum_cons] at hsum
    have hc : ¬(ptr ≤ c) := by omega
    simp only [locateLe, hc, if_false]
    exact ih _ _ (by omega)

/-- Shape of a well-formed list node: its constructor fields, the parse
result (the `>>> 0` coercion is the identity on well-formed counts), and
the count sum being its logical size. -/
theorem wfL_parse : ∀ (d : Nat) (r : CID), wfLb d r = true →
    ∃ cnt hs, r = CID.node (d == 0) cnt hs ∧
      parseL r = .ok ⟨(d == 0), cnt, hs.toList⟩ ∧
      cnt.length = hs.toList.length ∧
      cnt.sum = lsizeL r := by
  intro d r hwf
  cases d with
  | zero =>
    match r with
    | .item _ => simp [wfLb] at hwf
    | .mnode _ _ _ _ => simp [wfLb] at hwf
    | .node false _ _ => simp [wfLb] at hwf
    | .node true cnt hs =>
      simp only [wfLb, Bool.and_eq_true, beq_iff_eq, List.all_eq_true] at hwf
      obtain ⟨hlen, hones⟩ := hwf
      have hones' : ∀ x ∈ cnt, x = 1 := fun x hx => by
        have := hones x hx
        simpa using this
      have hmap : cnt.map (· % 4294967296) = cnt := by
        rw [show cnt.map (· % 4294967296) = cnt.map id from
          List.map_congr_left fun x hx => by rw [hones' x hx]; rfl, List.map_id]
      refine ⟨cnt, hs, rfl, ?_, hlen, ?_⟩
      · simp [parseL, hlen, hmap]
      · have : cnt = List.replicate cnt.length 1 := List.eq_replicate_of_mem hones'
        rw [this]
        simp [lsizeL, contentsL, hlen]
  | succ d =>
    match r with
    | .item _ => simp [wfLb] at hwf
    | .mnode _ _ _ _ => simp [wfLb] at hwf
    | .node true _ _ => simp [wfLb] at hwf
    | .node false cnt hs =>
      simp only [wfLb, Bool.and_eq_true, beq_iff_eq, Bool.not_eq_true',
        List.all_eq_true] at hwf
      obtain ⟨⟨⟨⟨hlen, hne⟩, hwfc⟩, hcnt⟩, hbound⟩ := hwf
      have hbound' : ∀ x ∈ cnt, x < 4294967296 := fun x hx => by
        have := hbound x hx
        simp only [Bool.and_eq_true, decide_eq_true_eq] at this
        exact this.2
      have hmap : cnt.map (· % 4294967296) = cnt := by
        rw [show cnt.map (· % 4294967296) = cnt.map id from
          List.map_congr_left fun x hx => by
            simp [Nat.mod_eq_of_lt (hbound' x hx)], List.map_id]
      refine ⟨cnt, hs, rfl, ?_, ?_, ?_⟩
      · simp [parseL, hlen, hmap]
      · simpa using hlen
      · rw [hcnt]
        simp only [lsizeL, contentsL]
        exact (contentsLs_length hs).symm

/-- `upsOK` over an appended final level. -/
theorem upsOK_append : ∀ (xs : List LLevel) (k : Nat) (l : LLevel),
    upsOK k xs → upTailOK (k + xs.length) l → upsOK k (xs ++ [l]) := by
  intro xs
  induction xs with
  | nil =>
    intro k l _ hl
    simpa [upsOK] using hl
  | cons x rest ih =>
    intro k l hx hl
    obtain ⟨hx1, hx2⟩ := hx
    refine ⟨hx1, ih (k + 1) l hx2 ?_⟩
    have : k + 1 + rest.length = k + (x :: rest).length := by simp; omega
    rw [this]
    exact hl

/-- Prefix of a zip of equal-length lists, first components. -/
theorem take_zip_map_fst : ∀ (l1 : List Nat) (l2 : List CID), l1.length = l2.length →
    ∀ i, ((l1.zip l2).take i).map Prod.fst = l1.take i := by
  intro l1
  induction l1 with
  | nil => intro l2 _ i; simp
  | cons a l ih =>
    intro l2 hlen i
    cases l2 with
    | nil => simp at hlen
    | cons b l2' =>
      cases i with
      | zero => simp
      | succ j =>
        simp only [List.zip_cons_cons, List.take_succ_cons, List.map_cons]
        rw [ih l2' (by simpa using hlen) j]

/-- The `RabinList.splice` descent on a well-formed nonempty tree with an
in-range start succeeds, and the staged stack it returns is invariant-clean:
the leaf level's arrays are aligned and its insertion point in range, the
interior levels carry well-formed nonempty unconsumed children of the right
depths, and the total extension capacity accounts for every element at or
после the start rank. -/
theorem spliceDescend_spec : ∀ (d : Nat) (r : CID) (fuel ptr : Nat),
    wfLb d r = true → csize r ≤ fuel → ptr ≤ lsizeL r → 0 < lsizeL r →
    ∃ bottom uppers, spliceDescend fuel r ptr = .ok (bottom :: uppers) ∧
      bottomOK bottom ∧ upsOK 0 uppers ∧ uppers.length = d ∧
      bottom.start ≤ bottom.hashes.length ∧
      bottom.hashes.length + capOf uppers = bottom.start + (lsizeL r - ptr) := by
  intro d
  induction d with
  | zero =>
    intro r fuel ptr hwf hfuel hptr hpos
    obtain ⟨cnt, hs, rfl, hparse, hlen, hsum⟩ := wfL_parse 0 r hwf
    simp only [wfLb, Bool.and_eq_true, beq_iff_eq, List.all_eq_true] at hwf
    obtain ⟨-, hones⟩ := hwf
    have hones' : ∀ x ∈ cnt, x = 1 := fun x hx => by simpa using hones x hx
    have hsz : lsizeL (CID.node (0 == 0) cnt hs) = hs.toList.length := rfl
    obtain ⟨f, rfl⟩ : ∃ f, fuel = f + 1 :=
      ⟨fuel - 1, by have := csize_pos (CID.node (0 == 0) cnt hs); omega⟩
    have hlpos : 0 < hs.toList.length := by rw [← hsz]; exact hpos
    have hzne : cnt.zip hs.toList ≠ [] := by
      intro hnil
      have := congrArg List.length hnil
      simp only [List.length_zip, List.length_nil] at this
      omega
    have hzsum : ptr ≤ ((cnt.zip hs.toList).map Prod.fst).sum := by
      rw [zip_map_fst hlen, hsum]
      exact hptr
    obtain ⟨i, c, h, p', heq, hpc, hi0, hilt, hget, hacc⟩ :=
      locateLe_found (cnt.zip hs.toList) ptr 0 hzsum hzne
    simp only [Nat.sub_zero] at hilt hget hacc
    have hci : cnt.get? i = some c :=
      ((List.get?_zip_eq_some cnt hs.toList (c, h) i).mp hget).1
    have hc1 : c = 1 := hones' c (List.get?_mem hci)
    have htake : ((cnt.zip hs.toList).take i).map Prod.fst = cnt.take i :=
      take_zip_map_fst cnt hs.toList hlen i
    have htakesum : (cnt.take i).sum = i := by
      have hrep : cnt = List.replicate cnt.length 1 := List.eq_replicate_of_mem hones'
      have hilen : i < cnt.length := by
        have : (cnt.zip hs.toList).length ≤ cnt.length := by
          simp [List.length_zip]
        omega
      rw [hrep, List.take_replicate]
      simp
      omega
    rw [htake, htakesum] at hacc
    have hstart : i + (if p' = c then 1 else 0) = ptr := by
      rcases Nat.lt_or_ge p' 1 with hp | hp
      · have : p' = 0 := by omega
        subst this
        have : ¬((0 : Nat) = c) := by omega
        simp [this]
        omega
      · have : p' = 1 := by omega
        subst this
        simp [hc1]
        omega
    refine ⟨⟨i + (if p' = c then 1 else 0), i + 1, cnt, hs.toList⟩, [], ?_, ?_, trivial,
      rfl, ?_, ?_⟩
    · simp only [spliceDescend, hparse, bind, Except.bind, heq]
      simp
    · exact hlen
    · simp only [hstart]
      omega
    · simp only [capOf, List.map_nil, List.sum_nil, hstart, hsz]
      omega
  | succ d ih =>
    intro r fuel ptr hwf hfuel hptr hpos
    obtain ⟨cnt, hs, rfl, hparse, hlen, hsum⟩ := wfL_parse (d + 1) r hwf
    simp only [wfLb, Bool.and_eq_true, beq_iff_eq, Bool.not_eq_true',
      List.all_eq_true] at hwf
    obtain ⟨⟨⟨⟨-, -⟩, hwfc⟩, hcnt⟩, hbound⟩ := hwf
    have hsz : lsizeL (CID.node (d + 1 == 0) cnt hs) = (contentsLs hs).length := rfl
    obtain ⟨f, rfl⟩ : ∃ f, fuel = f + 1 :=
      ⟨fuel - 1, by have := csize_pos (CID.node (d + 1 == 0) cnt hs); omega⟩
    have hcs : 0 < cnt.sum := by
      rw [hsum]
      exact hpos
    have hcl : 0 < cnt.length := by
      rcases cnt with _ | ⟨a, l⟩
      · simp at hcs
      · simp
    have hzne : cnt.zip hs.toList ≠ [] := by
      intro hnil
      have := congrArg List.length hnil
      simp only [List.length_zip, List.length_nil] at this
      omega
    have hzsum : ptr ≤ ((cnt.zip hs.toList).map Prod.fst).sum := by
      rw [zip_map_fst hlen, hsum]
      exact hptr
    obtain ⟨i, c, h, p', heq, hpc, hi0, hilt, hget, hacc⟩ :=
      locateLe_found (cnt.zip hs.toList) ptr 0 hzsum hzne
    simp only [Nat.sub_zero] at hilt hget hacc
    have hci : cnt.get? i = some c :=
      ((List.get?_zip_eq_some cnt hs.toList (c, h) i).mp hget).1
    have hhi : hs.toList.get? i = some h :=
      ((List.get?_zip_eq_some cnt hs.toList (c, h) i).mp hget).2
    have hmemh : h ∈ hs.toList := List.get?_mem hhi
    have hchild : wfLb d h = true := hwfc h hmemh
    have hclsize : c = lsizeL h := by
      have h2 := hci
      rw [hcnt, List.get?_map, hhi] at h2
      simp only [Option.map_some', Option.some.injEq] at h2
      exact h2.symm
    have hcpos : 0 < c := by
      have := hbound c (List.get?_mem hci)
      simp only [Bool.and_eq_true, decide_eq_true_eq] at this
      exact this.1
    have hcsz : csize h ≤ f := by
      have h1 := csize_le_of_mem hs h hmemh
      have h2 : csize (CID.node (d + 1 == 0) cnt hs) = 1 + csizes hs := rfl
      omega
    obtain ⟨bottom, uppers, hdesc, hbOK, hupsOK, hulen, hbst, hcap⟩ :=
      ih h f p' hchild hcsz (by omega) (by omega)
    have hupOK2 : upTailOK d ⟨i, i + 1, cnt, hs.toList⟩ := by
      refine ⟨hlen, ?_, ?_⟩
      · show i + 1 ≤ hs.toList.length
        have : (cnt.zip hs.toList).length ≤ hs.toList.length := by
          simp [List.length_zip]
        omega
      · intro j hj hstop hget2
        have hmem : hj ∈ hs.toList := List.get?_mem hget2
        have hw := hwfc hj hmem
        refine ⟨hw, ?_⟩
        have hcj : cnt.get? j = some (lsizeL hj) := by
          rw [hcnt, List.get?_map, hget2]
          rfl
        have := hbound (lsizeL hj) (List.get?_mem hcj)
        simp only [Bool.and_eq_true, decide_eq_true_eq] at this
        exact this.1
    refine ⟨bottom, uppers ++ [⟨i, i + 1, cnt, hs.toList⟩], ?_, hbOK, ?_, ?_, hbst, ?_⟩
    · simp only [spliceDescend, hparse, bind, Except.bind, heq, hdesc]
      rfl
    · exact upsOK_append uppers 0 _ hupsOK (by simpa [hulen] using hupOK2)
    · simp [hulen]
    · have hcapapp : capOf (uppers ++ [⟨i, i + 1, cnt, hs.toList⟩]) =
          capOf uppers + capTail ⟨i, i + 1, cnt, hs.toList⟩ := by
        simp [capOf]
      rw [hcapapp]
      have htailsum : capTail ⟨i, i + 1, cnt, hs.toList⟩ =
          ((hs.toList.drop (i + 1)).map lsizeL).sum := rfl
      have hsplit : (cnt.take i).sum + c + ((cnt.drop (i + 1)).map id).sum = cnt.sum := by
        have h1 : cnt.take i ++ cnt.drop i = cnt := List.take_append_drop i cnt
        have h2 : cnt.drop i = c :: cnt.drop (i + 1) := by
          obtain ⟨hlt, hgetc⟩ := List.get?_eq_some.mp hci
          rw [List.drop_eq_getElem_cons hlt]
          rw [List.get_eq_getElem] at hgetc
          rw [hgetc]
        calc (cnt.take i).sum + c + ((cnt.drop (i + 1)).map id).sum
            = (cnt.take i).sum + (c :: cnt.drop (i + 1)).sum := by
              simp [List.map_id]
              omega
          _ = (cnt.take i).sum + (cnt.drop i).sum := by rw [h2]
          _ = cnt.sum := by
              rw [← List.sum_append, h1]
      have hdropmap : (cnt.drop (i + 1)).map id = (hs.toList.drop (i + 1)).map lsizeL := by
        rw [hcnt, List.map_id]
        rw [List.map_drop]
      have htake : ((cnt.zip hs.toList).take i).map Prod.fst = cnt.take i :=
        take_zip_map_fst cnt hs.toList hlen i
      rw [htake] at hacc
      rw [htailsum, ← hdropmap]
      rw [hsz] at hptr ⊢
      have hsum2 : cnt.sum = (contentsLs hs).length := by
        rw [hsum, hsz]
      omega

/-- `extendPull` never fails with OutOfBounds (its failures are missing
indices or parse failures). -/
theorem extendPull_not_oob : ∀ (levels : List LLevel) (i : Nat),
    extendPull levels i ≠ Except.error Err.outOfBounds := by
  intro levels i h
  unfold extendPull at h
  cases hg1 : levels.get? (i + 1) with
  | none => simp only [hg1] at h; simp at h
  | some parent =>
    simp only [hg1] at h
    cases hg2 : parent.hashes.get? parent.stop with
    | none => simp only [hg2] at h; simp at h
    | some cid =>
      simp only [hg2] at h
      cases hp : parseL cid with
      | error e =>
        simp only [hp] at h
        simp only [bind, Except.bind] at h
        have := parseL_error hp
        rw [this] at h
        simp at h
      | ok nd =>
        simp only [hp] at h
        simp only [bind, Except.bind] at h
        cases hg3 : levels.get? i with
        | none => simp only [hg3] at h; simp at h
        | some l => simp only [hg3] at h; simp at h

/-- `extendLevel` never fails with OutOfBounds. -/
theorem extendLevel_not_oob : ∀ (fuel : Nat) (levels : List LLevel) (i : Nat),
    extendLevel fuel levels i ≠ Except.error Err.outOfBounds := by
  intro fuel
  induction fuel with
  | zero => intro levels i h; simp [extendLevel] at h
  | succ f ih =>
    intro levels i h
    unfold extendLevel at h
    by_cases htop : i = levels.length - 1
    · rw [if_pos htop] at h; simp at h
    · rw [if_neg htop] at h
      cases hg1 : levels.get? (i + 1) with
      | none => simp only [hg1] at h; simp at h
      | some parent =>
        simp only [hg1] at h
        by_cases hstop : parent.stop = parent.count.length
        · rw [if_pos hstop] at h
          simp only [bind, Except.bind] at h
          cases hr : extendLevel f levels (i + 1) with
          | error e =>
            simp only [hr] at h
            simp only [Except.error.injEq] at h
            rw [h] at hr
            exact ih levels (i + 1) hr
          | ok res =>
            simp only [hr] at h
            cases res with
            | none => simp at h
            | some levels2 =>
              simp only [bind, Except.bind] at h
              cases hp : extendPull levels2 i with
              | error e =>
                simp only [hp] at h
                simp only [Except.error.injEq] at h
                rw [h] at hp
                exact extendPull_not_oob levels2 i hp
              | ok out => simp only [hp] at h; simp at h
        · rw [if_neg hstop] at h
          simp only [bind, Except.bind] at h
          cases hp : extendPull levels i with
          | error e =>
            simp only [hp] at h
            simp only [Except.error.injEq] at h
            rw [h] at hp
            exact extendPull_not_oob levels i hp
          | ok out => simp only [hp] at h; simp at h

/-- The extension loop never fails with OutOfBounds. -/
theorem extLoop_not_oob : ∀ (fuel : Nat) (levels : List LLevel),
    extLoop fuel levels ≠ Except.error Err.outOfBounds := by
  intro fuel
  induction fuel with
  | zero => intro levels h; simp [extLoop] at h
  | succ f ih =>
    intro levels h
    unfold extLoop at h
    cases hg : levels.get? 1 with
    | none => simp only [hg] at h; simp at h
    | some bottom =>
      simp only [hg] at h
      by_cases hlt : bottom.count.length < bottom.stop
      · rw [if_pos hlt] at h
        simp only [bind, Except.bind] at h
        cases hr : extendLevel levels.length levels 1 with
        | error e =>
          simp only [hr] at h
          simp only [Except.error.injEq] at h
          rw [h] at hr
          exact extendLevel_not_oob _ levels 1 hr
        | ok res =>
          simp only [hr] at h
          cases res with
          | none => simp at h
          | some levels2 => exact ih levels2 h
      · rw [if_neg hlt] at h
        simp at h

/-- The collapse loop never fails with OutOfBounds. -/
theorem collapseGoL_not_oob : ∀ (fuel : Nat) (c : CID),
    collapseGoL fuel c ≠ Except.error Err.outOfBounds := by
  intro fuel
  induction fuel with
  | zero => intro c h; simp [collapseGoL] at h
  | succ f ih =>
    intro c h
    unfold collapseGoL at h
    cases hp : parseL c with
    | error e =>
      simp only [hp] at h
      simp only [bind, Except.bind] at h
      have := parseL_error hp
      rw [this] at h
      simp at h
    | ok nd =>
      simp only [hp] at h
      simp only [bind, Except.bind] at h
      match hnd : nd.hashes with
      | [x] =>
        simp only [hnd] at h
        exact ih x h
      | [] => simp only [hnd] at h; simp at h
      | x :: y :: rest => simp only [hnd] at h; simp at h

/-- On a well-formed tree, an empty child array means no logical contents
and conversely. -/
theorem wfL_empty_iff : ∀ (d : Nat) (cnt : List Nat) (hs : CIDs),
    wfLb d (CID.node (d == 0) cnt hs) = true →
    (hs.toList.length = 0 ↔ lsizeL (CID.node (d == 0) cnt hs) = 0) := by
  intro d cnt hs hwf
  obtain ⟨cnt2, hs2, heq, hparse, hlen, hsum⟩ := wfL_parse d _ hwf
  injection heq with eb e1 e2
  subst e1
  subst e2
  constructor
  · intro h0
    have hnil : cnt = [] := List.eq_nil_of_length_eq_zero (by omega)
    rw [← hsum, hnil]
    simp
  · intro h0
    rw [h0] at hsum
    cases d with
    | zero =>
      simp only [wfLb, Bool.and_eq_true, beq_iff_eq, List.all_eq_true] at hwf
      obtain ⟨-, hones⟩ := hwf
      have : cnt = [] := by
        cases hc : cnt with
        | nil => rfl
        | cons a l =>
          rw [hc] at hsum hones
          have ha := hones a (by simp)
          simp at ha
          simp [ha] at hsum
      rw [this] at hlen
      simp at hlen
      omega
    | succ d2 =>
      simp only [wfLb, Bool.and_eq_true, beq_iff_eq, Bool.not_eq_true',
        List.all_eq_true] at hwf
      obtain ⟨⟨⟨⟨-, -⟩, -⟩, -⟩, hbound⟩ := hwf
      have : cnt = [] := by
        cases hc : cnt with
        | nil => rfl
        | cons a l =>
          rw [hc] at hsum hbound
          have ha := hbound a (by simp)
          simp only [Bool.and_eq_true, decide_eq_true_eq] at ha
          simp at hsum
          omega
      rw [this] at hlen
      simp at hlen
      omega

/-- The post-descent splice pipeline never fails with OutOfBounds. -/
theorem spliceFinish_not_oob : ∀ (g : CID → Int) (levels1 : List LLevel),
    spliceFinish g levels1 ≠ Except.error Err.outOfBounds := by
  intro g levels1 h
  unfold spliceFinish at h
  cases hext : extLoop (extPotential levels1 + 2) levels1 with
  | error e =>
    simp only [hext, bind, Except.bind, Except.error.injEq] at h
    rw [h] at hext
    exact extLoop_not_oob _ _ hext
  | ok levels2 =>
    simp only [hext, bind, Except.bind] at h
    cases levels2 with
    | nil => simp at h
    | cons child rest =>
      simp only at h
      by_cases hhead : (rebuildGo g true child rest).hashes.length = 0
      · rw [if_pos hhead] at h
        simp at h
      · rw [if_neg hhead] at h
        exact collapseGoL_not_oob _ _ h

/-- C6 (amended).  On a well-formed list root, `splice(r, start,
deleteCount, items)` fails with OutOfBounds exactly when `start < 0` or the
root is nonempty and `start > size(r)`: negative starts throw before
anything else, on the empty root every `start ≥ 0` degenerates to
`create(items)`, and for a nonempty root with `0 ≤ start ≤ size(r)` the
descent succeeds and no later stage can raise OutOfBounds (a splice whose
result is a one-element list still fails, but with InvalidNode, in the
collapse phase). -/
theorem c6_amended (g : CID → Int) (d : Nat) (r : CID) (start dc : Int)
    (items : List CID) (hwf : wfLb d r = true) :
    (spliceList g r start dc items = Except.error Err.outOfBounds ↔
      (start < 0 ∨ (contentsL r ≠ [] ∧ (lsizeL r : Int) < start))) := by
  obtain ⟨cnt, hs, rfl, hparse, hlen, hsum⟩ := wfL_parse d r hwf
  by_cases hneg : start < 0
  · constructor
    · intro _
      exact Or.inl hneg
    · intro _
      unfold spliceList
      simp [hneg]
  · unfold spliceList
    simp only [hneg, if_false, hparse, bind, Except.bind]
    by_cases hempty : hs.toList.length = 0
    · have hsz0 : lsizeL (CID.node (d == 0) cnt hs) = 0 :=
        (wfL_empty_iff d cnt hs hwf).mp hempty
      have hce : contentsL (CID.node (d == 0) cnt hs) = [] :=
        List.eq_nil_of_length_eq_zero hsz0
      rw [if_pos hempty]
      constructor
      · intro habs
        cases habs
      · intro hrhs
        rcases hrhs with hr | ⟨hr, _⟩
        · exact hr.elim
        · exact absurd hce hr
    · rw [if_neg hempty]
      have hpos : 0 < lsizeL (CID.node (d == 0) cnt hs) := by
        rcases Nat.eq_zero_or_pos (lsizeL (CID.node (d == 0) cnt hs)) with h0 | h0
        · exact absurd ((wfL_empty_iff d cnt hs hwf).mpr h0) hempty
        · exact h0
      have hcne : contentsL (CID.node (d == 0) cnt hs) ≠ [] := by
        intro hnil
        rw [show lsizeL (CID.node (d == 0) cnt hs) =
          (contentsL (CID.node (d == 0) cnt hs)).length from rfl, hnil] at hpos
        simp at hpos
      by_cases hrange : (lsizeL (CID.node (d == 0) cnt hs) : Int) < start
      · have hdesc : spliceDescend (csize (CID.node (d == 0) cnt hs))
            (CID.node (d == 0) cnt hs) start.toNat = .error .outOfBounds := by
          obtain ⟨f, hf⟩ : ∃ f, csize (CID.node (d == 0) cnt hs) = f + 1 :=
            ⟨csize (CID.node (d == 0) cnt hs) - 1,
              by have := csize_pos (CID.node (d == 0) cnt hs); omega⟩
          rw [hf]
          simp only [spliceDescend, hparse, bind, Except.bind]
          have hnone : locateLe (cnt.zip hs.toList) start.toNat 0 = none := by
            apply locateLe_none
            rw [zip_map_fst hlen, hsum]
            omega
          simp [hnone]
        simp only [hdesc]
        constructor
        · intro _
          exact Or.inr ⟨hcne, hrange⟩
        · intro _
          trivial
      · have hptr : start.toNat ≤ lsizeL (CID.node (d == 0) cnt hs) := by omega
        obtain ⟨bottom, uppers, hdesc, -, -, -, -, -⟩ :=
          spliceDescend_spec d _ (csize (CID.node (d == 0) cnt hs)) start.toNat hwf
            (le_refl _) hptr hpos
        simp only [hdesc]
        constructor
        · intro habs
          exact absurd habs (spliceFinish_not_oob g _)
        · intro hrhs
          rcases hrhs with hr | ⟨-, hr⟩
          · exact hr.elim
          · exact absurd hr hrange

/-- C6 witness: a two-element leaf root spliced at the in-range start 1
(no OutOfBounds) and at the out-of-range start 7 (OutOfBounds). -/
theorem c6_amended_witness :
    (spliceList gearZero (serializeL true [1, 1] [CID.item 0, CID.item 1]) 7 0 [] =
        Except.error Err.outOfBounds ↔
      ((7 : Int) < 0 ∨ (contentsL (serializeL true [1, 1] [CID.item 0, CID.item 1]) ≠ [] ∧
        (lsizeL (serializeL true [1, 1] [CID.item 0, CID.item 1]) : Int) < 7))) :=
  c6_amended gearZero 0 (serializeL true [1, 1] [CID.item 0, CID.item 1]) 7 0 []
    (by decide)

/-- A list of all-one naturals sums to its length. -/
theorem sum_all_one : ∀ (l : List Nat), l.all (· == 1) = true → l.sum = l.length := by
  intro l
  induction l with
  | nil => intro _; rfl
  | cons x xs ih =>
    intro h
    simp only [List.all_cons, Bool.and_eq_true, beq_iff_eq] at h
    simp only [List.sum_cons, List.length_cons, h.1, ih h.2]
    omega

/-- Destructor for well-formed leaves: shape, parse, and the logical size
being the child count. -/
theorem wfL_leaf (c : CID) (hwf : wfLb 0 c = true) :
    ∃ cnt hs, c = CID.node true cnt hs ∧ parseL c = .ok ⟨true, cnt, hs.toList⟩ ∧
      cnt.length = hs.toList.length ∧ cnt.length = lsizeL c := by
  obtain ⟨cnt, hs, hc, hparse, hlen, hsum⟩ := wfL_parse 0 c hwf
  refine ⟨cnt, hs, hc, hparse, hlen, ?_⟩
  rw [hc] at hwf
  simp only [wfLb, Bool.and_eq_true, beq_iff_eq] at hwf
  rw [← hsum, sum_all_one cnt hwf.2]

/-- Destructor for well-formed internal nodes: shape, parse, nonemptiness,
counts recording child sizes, and the children's own well-formedness. -/
theorem wfL_succ (d : Nat) (c : CID) (hwf : wfLb (d + 1) c = true) :
    ∃ cnt hs, c = CID.node false cnt hs ∧
      parseL c = .ok ⟨false, cnt, hs.toList⟩ ∧
      cnt.length = hs.toList.length ∧ hs.toList ≠ [] ∧
      cnt = hs.toList.map lsizeL ∧ cnt.sum = lsizeL c ∧
      (∀ h ∈ hs.toList, wfLb d h = true) ∧
      (∀ h ∈ hs.toList, 0 < lsizeL h) := by
  obtain ⟨cnt, hs, hc, hparse, hlen, hsum⟩ := wfL_parse (d + 1) c hwf
  have hd : ((d + 1 : Nat) == 0) = false := by simp
  rw [hd] at hc hparse
  rw [hc] at hwf
  simp only [wfLb, Bool.and_eq_true, beq_iff_eq, Bool.not_eq_true',
    List.all_eq_true] at hwf
  obtain ⟨⟨⟨⟨-, hne⟩, hwfc⟩, hcnt⟩, hbound⟩ := hwf
  have hne' : hs.toList ≠ [] := by
    intro hnil
    simp [hnil] at hne
  refine ⟨cnt, hs, hc, hparse, hlen, hne', hcnt, hsum, hwfc, ?_⟩
  intro h hh
  have hmem : lsizeL h ∈ cnt := by
    rw [hcnt]
    exact List.mem_map_of_mem lsizeL hh
  have := hbound _ hmem
  simp only [Bool.and_eq_true, decide_eq_true_eq] at this
  exact this.1

/-- Head, tail, and index bound extracted from a `drop` equation. -/
theorem drop_cons_get {α : Type _} : ∀ (l : List α) (n : Nat) (x : α) (xs : List α),
    l.drop n = x :: xs → l.get? n = some x ∧ l.drop (n + 1) = xs ∧ n < l.length := by
  intro l n
  induction n generalizing l with
  | zero =>
    intro x xs h
    simp only [List.drop_zero] at h
    subst h
    exact ⟨rfl, rfl, by simp⟩
  | succ n ih =>
    intro x xs h
    cases l with
    | nil => simp at h
    | cons y l2 =>
      have h2 : l2.drop n = x :: xs := h
      obtain ⟨a, b, c⟩ := ih l2 x xs h2
      refine ⟨a, b, ?_⟩
      simp only [List.length_cons]
      omega

/-- `get?` below the length of the left part of an append. -/
theorem get_append_lt {α : Type _} : ∀ (A Z : List α) (n : Nat), n < A.length →
    (A ++ Z).get? n = A.get? n := by
  intro A
  induction A with
  | nil => intro Z n h; simp at h
  | cons a A2 ih =>
    intro Z n h
    cases n with
    | zero => rfl
    | succ n =>
      simp only [List.length_cons] at h
      exact ih Z n (by omega)

/-- `get?` at exactly the length of the left part of an append. -/
theorem get_append_len {α : Type _} : ∀ (A Z : List α), (A ++ Z).get? A.length = Z.get? 0 := by
  intro A
  induction A with
  | nil => intro Z; rfl
  | cons a A2 ih => intro Z; exact ih Z

/-- Dropping exactly the left part of an append. -/
theorem drop_append_len {α : Type _} : ∀ (A Z : List α), (A ++ Z).drop A.length = Z := by
  intro A
  induction A with
  | nil => intro Z; rfl
  | cons a A2 ih => intro Z; exact ih Z

/-- Taking at most the left part of an append. -/
theorem take_append_le {α : Type _} : ∀ (A Z : List α) (n : Nat), n ≤ A.length →
    (A ++ Z).take n = A.take n := by
  intro A
  induction A with
  | nil =>
    intro Z n h
    simp at h
    simp [h]
  | cons a A2 ih =>
    intro Z n h
    cases n with
    | zero => rfl
    | succ n =>
      simp only [List.length_cons] at h
      simp only [List.cons_append, List.take_succ_cons]
      rw [ih Z n (by omega)]

/-- `get?` inside a `take` window. -/
theorem get_take_lt {α : Type _} : ∀ (A : List α) (n m : Nat), m < n →
    (A.take n).get? m = A.get? m := by
  intro A
  induction A with
  | nil => intro n m _; simp
  | cons a A2 ih =>
    intro n m h
    cases n with
    | zero => omega
    | succ n =>
      cases m with
      | zero => rfl
      | succ m => exact ih n m (by omega)

/-- The double `set` of `extendPull`, written as an append around the two
replaced entries. -/
theorem set_set_drop {α : Type _} : ∀ (l : List α) (n : Nat) (a b p : α) (xs : List α),
    l.drop (n + 1) = p :: xs → (l.set n a).set (n + 1) b = l.take n ++ a :: b :: xs := by
  intro l n
  induction n generalizing l with
  | zero =>
    intro a b p xs h
    cases l with
    | nil => simp at h
    | cons y l2 =>
      have h2 : l2 = p :: xs := h
      subst h2
      rfl
  | succ n ih =>
    intro a b p xs h
    cases l with
    | nil => simp at h
    | cons y l2 =>
      have h2 : l2.drop (n + 1) = p :: xs := h
      simp only [List.set_cons_succ, List.take_succ_cons, List.cons_append]
      rw [ih l2 a b p xs h2]

/-- `extendLevel` decomposed: it is `extendChain` on the chain of levels
strictly above the target level, followed by parsing the handed-down CID
and appending its payload to the target level's working copies. -/
theorem extendLevel_chain : ∀ (fuel : Nat) (levels : List LLevel) (lev : Nat),
    lev < levels.length →
    extendLevel fuel levels lev =
      (match extendChain fuel (levels.drop (lev + 1)) with
      | .error e => .error e
      | .ok none => .ok none
      | .ok (some (cid, chain2)) =>
        (match parseL cid with
        | .error e => .error e
        | .ok nd =>
          match levels.get? lev with
          | none => .error .typeErr
          | some l => .ok (some (levels.take lev ++
              (⟨l.start, l.stop, l.count ++ nd.count,
                l.hashes ++ nd.hashes⟩ :: chain2))))) := by
  intro fuel
  induction fuel with
  | zero => intro levels lev _; rfl
  | succ fuel ih =>
    intro levels lev hlev
    cases hchain : levels.drop (lev + 1) with
    | nil =>
      have hlen2 : levels.length ≤ lev + 1 := by
        have := congrArg List.length hchain
        simp [List.length_drop] at this
        omega
      have htop : lev = levels.length - 1 := by omega
      simp only [extendLevel, if_pos htop, extendChain]
    | cons parent rest =>
      obtain ⟨hget1, hdrop2, hlt1⟩ := drop_cons_get levels (lev + 1) parent rest hchain
      have hnottop : ¬ lev = levels.length - 1 := by omega
      simp only [extendLevel, if_neg hnottop, hget1, extendChain]
      by_cases hex : parent.stop = parent.count.length
      · simp only [if_pos hex]
        rw [ih levels (lev + 1) hlt1, hdrop2]
        cases hc : extendChain fuel rest with
        | error e => simp [bind, Except.bind]
        | ok o =>
          cases o with
          | none => simp [bind, Except.bind]
          | some pr =>
            obtain ⟨cid2, rest2⟩ := pr
            cases hp : parseL cid2 with
            | error e => simp [hp, bind, Except.bind]
            | ok nd2 =>
              simp only [hp, bind, Except.bind, hget1]
              have hA : (levels.take (lev + 1)).length = lev + 1 := by
                simp [List.length_take]
                omega
              have hg2 : (levels.take (lev + 1) ++
                  ((⟨parent.start, parent.stop, parent.count ++ nd2.count,
                     parent.hashes ++ nd2.hashes⟩ : LLevel) :: rest2)).get? (lev + 1) =
                  some ⟨parent.start, parent.stop, parent.count ++ nd2.count,
                     parent.hashes ++ nd2.hashes⟩ := by
                have := get_append_len (levels.take (lev + 1))
                  ((⟨parent.start, parent.stop, parent.count ++ nd2.count,
                     parent.hashes ++ nd2.hashes⟩ : LLevel) :: rest2)
                rw [hA] at this
                exact this
              simp only [extendPull, hg2]
              cases hh : (parent.hashes ++ nd2.hashes).get? parent.stop with
              | none => simp [hh, bind, Except.bind]
              | some cid =>
                simp only [hh]
                cases hp2 : parseL cid with
                | error e => simp [hp2, bind, Except.bind]
                | ok nd =>
                  simp only [hp2, bind, Except.bind]
                  have hg3 : (levels.take (lev + 1) ++
                      ((⟨parent.start, parent.stop, parent.count ++ nd2.count,
                         parent.hashes ++ nd2.hashes⟩ : LLevel) :: rest2)).get? lev =
                      levels.get? lev := by
                    rw [get_append_lt _ _ lev (by omega), get_take_lt _ _ _ (by omega)]
                  rw [hg3]
                  cases hg4 : levels.get? lev with
                  | none => simp [hg4]
                  | some l =>
                    have hdropA : (levels.take (lev + 1) ++
                        ((⟨parent.start, parent.stop, parent.count ++ nd2.count,
                           parent.hashes ++ nd2.hashes⟩ : LLevel) :: rest2)).drop (lev + 1) =
                        (⟨parent.start, parent.stop, parent.count ++ nd2.count,
                           parent.hashes ++ nd2.hashes⟩ : LLevel) :: rest2 := by
                      have := drop_append_len (levels.take (lev + 1))
                        ((⟨parent.start, parent.stop, parent.count ++ nd2.count,
                           parent.hashes ++ nd2.hashes⟩ : LLevel) :: rest2)
                      rw [hA] at this
                      exact this
                    simp only [hg4]
                    rw [set_set_drop _ lev _ _ _ _ hdropA]
                    rw [take_append_le _ _ lev (by omega), List.take_take]
                    simp [Nat.min_def]
      · simp only [if_neg hex]
        simp only [extendPull, hget1]
        cases hh : parent.hashes.get? parent.stop with
        | none => simp [hh, bind, Except.bind]
        | some cid =>
          simp only [hh]
          cases hp2 : parseL cid with
          | error e => simp [hp2, bind, Except.bind]
          | ok nd =>
            simp only [hp2, bind, Except.bind]
            cases hg4 : levels.get? lev with
            | none => simp [hg4]
            | some l =>
              simp only [hg4]
              rw [set_set_drop _ lev _ _ _ _ hchain]

/-- `get?` past the left part of an append. -/
theorem get_append_ge {α : Type _} : ∀ (A Z : List α) (n : Nat), A.length ≤ n →
    (A ++ Z).get? n = Z.get? (n - A.length) := by
  intro A
  induction A with
  | nil => intro Z n _; simp
  | cons a A2 ih =>
    intro Z n h
    cases n with
    | zero => simp at h
    | succ n =>
      simp only [List.length_cons] at h ⊢
      simp only [List.cons_append, List.get?_cons_succ]
      rw [ih Z n (by omega)]
      congr 1
      omega

/-- `capOf` unfolded one level. -/
theorem capOf_cons (l : LLevel) (rest : List LLevel) :
    capOf (l :: rest) = capTail l + capOf rest := by
  simp [capOf]

/-- A fully exhausted chain extends to `none`. -/
theorem extendChain_none : ∀ (chain : List LLevel) (d fuel : Nat),
    upsOK d chain → capOf chain = 0 → chain.length + 1 ≤ fuel →
    extendChain fuel chain = .ok none := by
  intro chain
  induction chain with
  | nil =>
    intro d fuel _ _ hfuel
    obtain ⟨f, rfl⟩ : ∃ f, fuel = f + 1 := ⟨fuel - 1, by omega⟩
    rfl
  | cons parent rest ih =>
    intro d fuel hups hcap hfuel
    obtain ⟨f, rfl⟩ : ∃ f, fuel = f + 1 := ⟨fuel - 1, by omega⟩
    obtain ⟨⟨hlen, hstople, htail⟩, hups2⟩ := hups
    rw [capOf_cons] at hcap
    have hct : capTail parent = 0 := by omega
    have hcr : capOf rest = 0 := by omega
    have hex : parent.stop = parent.count.length := by
      rcases Nat.lt_or_ge parent.stop parent.hashes.length with hlt | hge
      · exfalso
        have hget : parent.hashes.get? parent.stop = some (parent.hashes[parent.stop]) := by
          rw [List.get?_eq_getElem?]
          exact List.getElem?_eq_getElem hlt
        have hpos := (htail parent.stop _ (le_refl _) hget).2
        unfold capTail at hct
        rw [List.drop_eq_getElem_cons hlt] at hct
        simp only [List.map_cons, List.sum_cons] at hct
        omega
      · omega
    simp only [extendChain, if_pos hex]
    rw [ih (d + 1) f hups2 hcr (by simp only [List.length_cons] at hfuel; omega)]

/-- Dropping the left part of an append plus one more element. -/
theorem drop_append_len1 {α : Type _} : ∀ (A : List α) (z : α) (Z : List α),
    (A ++ z :: Z).drop (A.length + 1) = Z := by
  intro A
  induction A with
  | nil => intro z Z; rfl
  | cons a A2 ih =>
    intro z Z
    simp only [List.cons_append, List.length_cons, List.drop_succ_cons]
    exact ih z Z

/-- A chain with remaining capacity hands down a nonempty well-formed
subtree of the base depth, preserving the chain invariants and the total
remaining capacity. -/
theorem extendChain_pull : ∀ (chain : List LLevel) (d fuel : Nat),
    upsOK d chain → 0 < capOf chain → chain.length + 1 ≤ fuel →
    ∃ cid chain2, extendChain fuel chain = .ok (some (cid, chain2)) ∧
      wfLb d cid = true ∧ 0 < lsizeL cid ∧ upsOK d chain2 ∧
      lsizeL cid + capOf chain2 = capOf chain := by
  intro chain
  induction chain with
  | nil =>
    intro d fuel _ hcap _
    simp [capOf] at hcap
  | cons parent rest ih =>
    intro d fuel hups hcap hfuel
    obtain ⟨f, rfl⟩ : ∃ f, fuel = f + 1 := ⟨fuel - 1, by omega⟩
    obtain ⟨⟨hlen, hstople, htail⟩, hups2⟩ := hups
    rw [capOf_cons] at hcap
    by_cases hex : parent.stop = parent.count.length
    · have hdnil : parent.hashes.drop parent.stop = [] :=
        List.drop_eq_nil_of_le (by omega)
      have hct : capTail parent = 0 := by
        unfold capTail
        rw [hdnil]
        rfl
      have hcr : 0 < capOf rest := by omega
      obtain ⟨cid2, rest2, hcall, hwf2, hpos2, hups22, hcap2⟩ :=
        ih (d + 1) f hups2 hcr (by simp only [List.length_cons] at hfuel; omega)
      obtain ⟨cnt2, hs2, hceq, hparse2, hlen2, hne2, hcnt2, hsum2, hwfc2, hposc2⟩ :=
        wfL_succ d cid2 hwf2
      cases hl : hs2.toList with
      | nil => exact absurd hl hne2
      | cons c0 t0 =>
        rw [hl] at hparse2
        have hstop : parent.stop = parent.hashes.length := by omega
        have hget0 : (parent.hashes ++ (c0 :: t0)).get? parent.stop = some c0 := by
          rw [hstop]
          exact get_append_len parent.hashes (c0 :: t0)
        refine ⟨c0, ⟨parent.start, parent.stop + 1, parent.count ++ cnt2,
          parent.hashes ++ (c0 :: t0)⟩ :: rest2, ?_, ?_, ?_, ?_, ?_⟩
        · simp only [extendChain, if_pos hex, hcall, hparse2, hget0]
        · exact hwfc2 c0 (by rw [hl]; exact List.mem_cons_self c0 t0)
        · exact hposc2 c0 (by rw [hl]; exact List.mem_cons_self c0 t0)
        · refine ⟨⟨?_, ?_, ?_⟩, hups22⟩
          · rw [hl] at hlen2
            simp only [List.length_append, List.length_cons] at hlen2 ⊢
            omega
          · simp only [List.length_append, List.length_cons]
            omega
          · intro j h hj hh
            have hj2 : parent.stop + 1 ≤ j := hj
            have hjge : parent.hashes.length ≤ j := by omega
            rw [get_append_ge _ _ j hjge] at hh
            have hmem : h ∈ hs2.toList := by
              rw [hl]
              exact List.get?_mem hh
            exact ⟨hwfc2 h hmem, hposc2 h hmem⟩
        · have hd1 : (parent.hashes ++ (c0 :: t0)).drop (parent.stop + 1) = t0 := by
            rw [hstop]
            exact drop_append_len1 parent.hashes c0 t0
          have hctn : capTail (⟨parent.start, parent.stop + 1, parent.count ++ cnt2,
              parent.hashes ++ (c0 :: t0)⟩ : LLevel) = (t0.map lsizeL).sum := by
            show (((parent.hashes ++ (c0 :: t0)).drop (parent.stop + 1)).map lsizeL).sum =
              (t0.map lsizeL).sum
            rw [hd1]
          have hsz2 : lsizeL cid2 = lsizeL c0 + (t0.map lsizeL).sum := by
            rw [← hsum2, hcnt2, hl]
            simp
          rw [capOf_cons, capOf_cons, hctn, hct]
          omega
    · have hlt : parent.stop < parent.hashes.length := by omega
      have hget : parent.hashes.get? parent.stop = some (parent.hashes[parent.stop]) := by
        rw [List.get?_eq_getElem?]
        exact List.getElem?_eq_getElem hlt
      obtain ⟨hwfh, hposh⟩ := htail parent.stop _ (le_refl _) hget
      refine ⟨parent.hashes[parent.stop],
        ⟨parent.start, parent.stop + 1, parent.count, parent.hashes⟩ :: rest,
        ?_, hwfh, hposh, ?_, ?_⟩
      · simp only [extendChain, if_neg hex, hget]
      · refine ⟨⟨hlen, show parent.stop + 1 ≤ parent.hashes.length from by omega, ?_⟩, hups2⟩
        intro j h hj hh
        have hj2 : parent.stop + 1 ≤ j := hj
        exact htail j h (by omega) hh
      · have hctp : capTail parent = lsizeL parent.hashes[parent.stop] +
            capTail (⟨parent.start, parent.stop + 1, parent.count,
              parent.hashes⟩ : LLevel) := by
          show ((parent.hashes.drop parent.stop).map lsizeL).sum = _
          rw [List.drop_eq_getElem_cons hlt]
          simp only [List.map_cons, List.sum_cons]
          rfl
        rw [capOf_cons, capOf_cons]
        omega

/-- The deletion-window extension loop ignores the exact value of the
bottom window's `stop` beyond the total reachable capacity
`bottom.count.length + capOf uppers`: any two stops at least that large
drive the loop to identical results (both consume everything and clamp). -/
theorem extLoop_congr : ∀ (fuel : Nat) (p : LLevel) (st s1 s2 : Nat) (cnt : List Nat)
    (hs : List CID) (uppers : List LLevel),
    upsOK 0 uppers → cnt.length + capOf uppers ≤ s1 → cnt.length + capOf uppers ≤ s2 →
    extLoop fuel (p :: ⟨st, s1, cnt, hs⟩ :: uppers) =
      extLoop fuel (p :: ⟨st, s2, cnt, hs⟩ :: uppers) := by
  intro fuel
  induction fuel with
  | zero => intro p st s1 s2 cnt hs uppers _ _ _; rfl
  | succ fuel ih =>
    intro p st s1 s2 cnt hs uppers hups h1 h2
    by_cases hcap : 0 < capOf uppers
    · obtain ⟨cid, chain2, hpull, hwf, hpos, hups2, hcapeq⟩ :=
        extendChain_pull uppers 0 (uppers.length + 1 + 1) hups hcap (by omega)
      obtain ⟨cntc, hsc, hceq, hparsec, hlenc, hsizec⟩ := wfL_leaf cid hwf
      have key : ∀ s, cnt.length + capOf uppers ≤ s →
          extLoop (fuel + 1) (p :: ⟨st, s, cnt, hs⟩ :: uppers) =
            extLoop fuel (p :: ⟨st, s, cnt ++ cntc, hs ++ hsc.toList⟩ :: chain2) := by
        intro s hsle
        have hguard : cnt.length < s := by omega
        simp only [extLoop, List.get?_cons_succ, List.get?_cons_zero]
        rw [if_pos hguard]
        simp only [List.length_cons]
        rw [extendLevel_chain (uppers.length + 1 + 1)
          (p :: (⟨st, s, cnt, hs⟩ : LLevel) :: uppers) 1 (by simp)]
        simp only [List.drop_succ_cons, List.drop_zero]
        rw [hpull]
        simp only [hparsec, List.get?_cons_succ, List.get?_cons_zero, List.take_succ_cons,
          List.take_zero, List.cons_append, List.nil_append, bind, Except.bind]
      rw [key s1 h1, key s2 h2]
      have hlen2 : (cnt ++ cntc).length + capOf chain2 = cnt.length + capOf uppers := by
        simp only [List.length_append]
        omega
      exact ih p st s1 s2 (cnt ++ cntc) (hs ++ hsc.toList) chain2 hups2
        (by omega) (by omega)
    · have hcap0 : capOf uppers = 0 := by omega
      have key : ∀ s, cnt.length + capOf uppers ≤ s →
          extLoop (fuel + 1) (p :: ⟨st, s, cnt, hs⟩ :: uppers) =
            .ok (p :: ⟨st, cnt.length, cnt, hs⟩ :: uppers) := by
        intro s hsle
        rcases Nat.lt_or_ge cnt.length s with hgt | hge
        · simp only [extLoop, List.get?_cons_succ, List.get?_cons_zero]
          rw [if_pos hgt]
          simp only [List.length_cons]
          rw [extendLevel_chain (uppers.length + 1 + 1)
            (p :: (⟨st, s, cnt, hs⟩ : LLevel) :: uppers) 1 (by simp)]
          simp only [List.drop_succ_cons, List.drop_zero]
          rw [extendChain_none uppers 0 (uppers.length + 1 + 1) hups hcap0 (by omega)]
          simp only [bind, Except.bind, List.set_cons_succ, List.set_cons_zero]
        · have hseq : s = cnt.length := by omega
          simp only [extLoop, List.get?_cons_succ, List.get?_cons_zero]
          rw [if_neg (by omega)]
          rw [hseq]
      rw [key s1 h1, key s2 h2]

/-- C8.  Delete-count clamping: on a well-formed list root with an
in-range `start`, a `deleteCount` exceeding `size(r) - start` produces
exactly the same result as `deleteCount = size(r) - start`: the extension
loop consumes only the elements that exist and clamps the deletion window
to them, so a deleteCount reaching past the end deletes only the existing
elements.  `g` abstracts the signed 32-bit gear table driving the
content-defined chunker; the equality holds for every gear. -/
theorem c8_delete_clamp (g : CID → Int) (d : Nat) (r : CID) (start dc : Int)
    (items : List CID) (hwf : wfLb d r = true) (h0 : 0 ≤ start)
    (hle : start ≤ (lsizeL r : Int)) (hdc : (lsizeL r : Int) - start < dc) :
    spliceList g r start dc items =
      spliceList g r start ((lsizeL r : Int) - start) items := by
  obtain ⟨cnt, hs, rfl, hparse, hlen, hsum⟩ := wfL_parse d r hwf
  have hneg : ¬ start < 0 := by omega
  unfold spliceList
  simp only [hneg, if_false, hparse, bind, Except.bind]
  by_cases hempty : hs.toList.length = 0
  · rw [if_pos hempty, if_pos hempty]
  · rw [if_neg hempty, if_neg hempty]
    have hpos : 0 < lsizeL (CID.node (d == 0) cnt hs) := by
      rcases Nat.eq_zero_or_pos (lsizeL (CID.node (d == 0) cnt hs)) with h0l | h0l
      · exact absurd ((wfL_empty_iff d cnt hs hwf).mpr h0l) hempty
      · exact h0l
    have hptr : start.toNat ≤ lsizeL (CID.node (d == 0) cnt hs) := by omega
    obtain ⟨⟨bst, bsp, bcnt, bhs⟩, uppers, hdesc, hbok, hups, hulen, hble, hcap⟩ :=
      spliceDescend_spec d _ (csize (CID.node (d == 0) cnt hs)) start.toNat hwf
        (le_refl _) hptr hpos
    have hbok2 : bcnt.length = bhs.length := hbok
    have hble2 : bst ≤ bhs.length := hble
    have hcap2 : bhs.length + capOf uppers =
        bst + (lsizeL (CID.node (d == 0) cnt hs) - start.toNat) := hcap
    simp only [hdesc]
    have hCAP1 : bcnt.length + capOf uppers ≤ ((bst : Int) + dc).toNat := by omega
    have hCAP2 : bcnt.length + capOf uppers ≤
        ((bst : Int) + ((lsizeL (CID.node (d == 0) cnt hs) : Int) - start)).toNat := by
      omega
    have hd1 : bhs.drop ((bst : Int) + dc).toNat = [] :=
      List.drop_eq_nil_of_le (by omega)
    have hd2 : bhs.drop
        ((bst : Int) + ((lsizeL (CID.node (d == 0) cnt hs) : Int) - start)).toNat = [] :=
      List.drop_eq_nil_of_le (by omega)
    unfold spliceFinish
    have hpot : extPotential (⟨0, 0, items.map fun _ => 1, items⟩ ::
          ⟨bst, ((bst : Int) + dc).toNat, bcnt, bhs⟩ :: uppers) =
        extPotential (⟨0, 0, items.map fun _ => 1, items⟩ ::
          ⟨bst, ((bst : Int) +
            ((lsizeL (CID.node (d == 0) cnt hs) : Int) - start)).toNat, bcnt, bhs⟩ ::
          uppers) := by
      simp only [extPotential, List.map_cons, List.sum_cons]
      rw [hd1, hd2]
    rw [hpot]
    rw [extLoop_congr _ _ bst (((bst : Int) + dc).toNat)
      (((bst : Int) + ((lsizeL (CID.node (d == 0) cnt hs) : Int) - start)).toNat)
      bcnt bhs uppers hups hCAP1 hCAP2]

/-- C8 witness: a two-element leaf root spliced at start 1 with
deleteCount 5 equals the same splice with the clamped deleteCount 1. -/
theorem c8_witness :
    spliceList gearZero (serializeL true [1, 1] [CID.item 0, CID.item 1]) 1 5 [] =
      spliceList gearZero (serializeL true [1, 1] [CID.item 0, CID.item 1]) 1
        ((lsizeL (serializeL true [1, 1] [CID.item 0, CID.item 1]) : Int) - 1) [] :=
  c8_delete_clamp gearZero 0 (serializeL true [1, 1] [CID.item 0, CID.item 1]) 1 5 []
    (by decide) (by decide) (by decide) (by decide)
